import Mathlib

/-!
Shallow embedding of the stock-chart data pipeline in `charts.py`
(fetch → extract → parse → date filter → period aggregation → series assembly).

Python floats are modelled as rationals (only order, `max`/`min` and equality
are used by the pipeline); Python `datetime` values as a record of numeric
fields validated exactly as `strptime` does for the two accepted formats;
Python dicts as association lists in insertion order (keys unique by
construction where the code builds them); exceptions as an `Except` error kind
mirroring the exception classes of the source (messages elided).
-/

namespace Charts

/-- The exception kinds of `charts.py`: the three custom exception classes,
plus `ValueError`, `RuntimeError` and `AttributeError` for the built-in
exceptions the code can raise. -/
inductive Err where
  | stockSymbolNotFound
  | apiRateLimit
  | noDataAvailable
  | valueError
  | runtimeError
  | attributeError
deriving DecidableEq, Repr

/-- One price record as built by `fetch_stock_rows_from_alpha_vantage`:
a dict with keys `date`, `open`, `high`, `low`, `close`. -/
structure Row where
  date : String
  «open» : ℚ
  high : ℚ
  low : ℚ
  close : ℚ
deriving DecidableEq, Repr

/-! ## String ordering (Python `str` comparison, lexicographic by code point) -/

/-- `charLe c d` models Python `c <= d` on single characters (code points). -/
def charLe (c d : Char) : Bool := decide (c ≤ d)

/-- `charLt c d` models Python `c < d` on single characters. -/
def charLt (c d : Char) : Bool := decide (c < d)

/-- Lexicographic `<=` on lists of characters: Python string comparison. -/
def charListLe : List Char → List Char → Bool
  | [], _ => true
  | _ :: _, [] => false
  | c :: cs, d :: ds => if c = d then charListLe cs ds else charLt c d

/-- Python `s1 <= s2` on strings. -/
def strLe (s t : String) : Bool := charListLe s.toList t.toList

/-- Python `sub in s` substring containment on strings. -/
def strContains (s pat : String) : Bool :=
  (s.toList.tails.any fun suf => pat.toList.isPrefixOf suf)

/-- Python `str.strip()` / `str.upper()` / `str.lower()` restricted to the
ASCII range the provider protocol uses (structurally recursive so that the
kernel can evaluate them). -/
def isPySpace (c : Char) : Bool :=
  c = ' ' || c = '\t' || c = '\n' || c = '\r' || c = '\x0b' || c = '\x0c'

/-- ASCII uppercase of one character (identity beyond `a`–`z`). -/
def upChar (c : Char) : Char :=
  match c with
  | 'a' => 'A' | 'b' => 'B' | 'c' => 'C' | 'd' => 'D' | 'e' => 'E'
  | 'f' => 'F' | 'g' => 'G' | 'h' => 'H' | 'i' => 'I' | 'j' => 'J'
  | 'k' => 'K' | 'l' => 'L' | 'm' => 'M' | 'n' => 'N' | 'o' => 'O'
  | 'p' => 'P' | 'q' => 'Q' | 'r' => 'R' | 's' => 'S' | 't' => 'T'
  | 'u' => 'U' | 'v' => 'V' | 'w' => 'W' | 'x' => 'X' | 'y' => 'Y'
  | 'z' => 'Z' | d => d

/-- ASCII lowercase of one character (identity beyond `A`–`Z`). -/
def downChar (c : Char) : Char :=
  match c with
  | 'A' => 'a' | 'B' => 'b' | 'C' => 'c' | 'D' => 'd' | 'E' => 'e'
  | 'F' => 'f' | 'G' => 'g' | 'H' => 'h' | 'I' => 'i' | 'J' => 'j'
  | 'K' => 'k' | 'L' => 'l' | 'M' => 'm' | 'N' => 'n' | 'O' => 'o'
  | 'P' => 'p' | 'Q' => 'q' | 'R' => 'r' | 'S' => 's' | 'T' => 't'
  | 'U' => 'u' | 'V' => 'v' | 'W' => 'w' | 'X' => 'x' | 'Y' => 'y'
  | 'Z' => 'z' | d => d

/-- Python `s.strip()`. -/
def pyStrip (s : String) : String :=
  ⟨((s.toList.dropWhile isPySpace).reverse.dropWhile isPySpace).reverse⟩

/-- Python `s.upper()`. -/
def pyUpper (s : String) : String := ⟨s.toList.map upChar⟩

/-- Python `s.lower()`. -/
def pyLower (s : String) : String := ⟨s.toList.map downChar⟩

/-! ## Decimal formatting (Python `str(n)` and `f"{n:02d}"`) -/

/-- The character of a decimal digit. -/
def digitChar : ℕ → Char
  | 0 => '0' | 1 => '1' | 2 => '2' | 3 => '3' | 4 => '4'
  | 5 => '5' | 6 => '6' | 7 => '7' | 8 => '8' | _ => '9'

/-- Fuel-driven decimal printer (any fuel > n computes `str(n)`). -/
def decStrGo : ℕ → ℕ → List Char
  | 0, _ => []
  | fuel + 1, n =>
    if n < 10 then [digitChar n]
    else decStrGo fuel (n / 10) ++ [digitChar (n % 10)]

/-- Python `str(n)` for a non-negative integer `n`. -/
def decStr (n : ℕ) : String := ⟨decStrGo (n + 1) n⟩

/-- Python `f"{n:02d}"`: zero-pad to two digits. -/
def pad2 (n : ℕ) : String := if n < 10 then ⟨['0', digitChar n]⟩ else decStr n

/-! ## Calendar arithmetic (model of the parts of `datetime` the code uses) -/

/-- Gregorian leap-year test. -/
def isLeap (y : ℕ) : Bool := y % 4 = 0 && (y % 100 ≠ 0 || y % 400 = 0)

/-- Days in a Gregorian month. -/
def daysInMonth (y m : ℕ) : ℕ :=
  if m = 2 then (if isLeap y then 29 else 28)
  else if m = 4 ∨ m = 6 ∨ m = 9 ∨ m = 11 then 30
  else 31

/-- Days in a Gregorian year. -/
def daysInYear (y : ℕ) : ℕ := if isLeap y then 366 else 365

/-- Number of days in the months strictly before month `m` of year `y`. -/
def monthPrefix (y m : ℕ) : ℕ :=
  (if isLeap y then 1 else 0) * (if 2 < m then 1 else 0) +
    (match m with
     | 1 => 0 | 2 => 31 | 3 => 59 | 4 => 90 | 5 => 120 | 6 => 151
     | 7 => 181 | 8 => 212 | 9 => 243 | 10 => 273 | 11 => 304 | _ => 334)

/-- 1-based ordinal day of the year. -/
def dayOfYear (y m d : ℕ) : ℕ := monthPrefix y m + d

/-- Day count of a civil date (epoch `0000-03-01` = day 0; standard
era-based civil-from-days arithmetic, valid for year ≥ 1). -/
def rataDie (y m d : ℕ) : ℕ :=
  let ys := if m ≤ 2 then y - 1 else y
  let era := ys / 400
  let yoe := ys % 400
  let mp := if m ≤ 2 then m + 9 else m - 3
  let doy := (153 * mp + 2) / 5 + d - 1
  era * 146097 + yoe * 365 + yoe / 4 - yoe / 100 + doy

/-- Days from the epoch `0000-03-01` to the start (March 1) of shifted year
`ys` — the era/year-of-era part of the civil-day arithmetic. -/
def yearStartDays (ys : ℕ) : ℕ :=
  (ys / 400) * 146097 + (ys % 400) * 365 + (ys % 400) / 4 - (ys % 400) / 100

/-- The day number of the Thursday of the ISO week containing day `rd`
(day 0 of `rataDie` was a Wednesday, so `rd % 7 = 5` on Mondays and
`(rd + 2) % 7 = 0` on Mondays). -/
def thursdayRd (rd : ℕ) : ℕ := rd + 3 - (rd + 2) % 7

/-- ISO weekday (Monday = 1 … Sunday = 7), as `datetime.isocalendar` reports.
Day 0 of `rataDie` (0000-03-01) was a Wednesday. -/
def isoWeekday (y m d : ℕ) : ℕ := (rataDie y m d + 2) % 7 + 1

/-- `datetime.isocalendar()` restricted to its first two components:
the ISO-8601 year and week number (week 1 is the week containing the
year's first Thursday; weeks run Monday–Sunday). -/
def isoPair (y m d : ℕ) : ℕ × ℕ :=
  let wd := isoWeekday y m d
  let doy := dayOfYear y m d
  if doy + 4 ≤ wd then
    (y - 1, (doy + 10 + daysInYear (y - 1) - wd) / 7)
  else if daysInYear y + wd < doy + 4 then
    (y + 1, (doy + 10 - daysInYear y - wd) / 7)
  else
    (y, (doy + 10 - wd) / 7)

/-- A parsed `datetime` value: the fields the pipeline reads. -/
structure DateTime where
  year : ℕ
  month : ℕ
  day : ℕ
  hour : ℕ
  minute : ℕ
  second : ℕ
deriving DecidableEq, Repr

/-- Range validity as `datetime` enforces it (`MINYEAR = 1`; the parser
reads at most four year digits, so year ≤ 9999 as for `MAXYEAR`). -/
def DateTime.Valid (t : DateTime) : Prop :=
  1 ≤ t.year ∧ t.year ≤ 9999 ∧ 1 ≤ t.month ∧ t.month ≤ 12 ∧
    1 ≤ t.day ∧ t.day ≤ daysInMonth t.year t.month ∧
    t.hour < 24 ∧ t.minute < 60 ∧ t.second < 60

instance (t : DateTime) : Decidable t.Valid :=
  show Decidable (1 ≤ t.year ∧ t.year ≤ 9999 ∧ 1 ≤ t.month ∧ t.month ≤ 12 ∧
    1 ≤ t.day ∧ t.day ≤ daysInMonth t.year t.month ∧
    t.hour < 24 ∧ t.minute < 60 ∧ t.second < 60) from inferInstance

/-- A strictly monotone numeric key for comparing valid `datetime` values:
Python compares them lexicographically by field. -/
def dtKey (t : DateTime) : ℕ :=
  ((((t.year * 13 + t.month) * 32 + t.day) * 24 + t.hour) * 60 + t.minute)
      * 60 + t.second

/-! ## `parse_date` (`datetime.strptime` with the two fixed formats) -/

/-- Numeric value of a digit character. -/
def digVal (c : Char) : ℕ := c.toNat - 48

/-- `mkDate y mo d` validates the field ranges as `strptime`/`datetime` do. -/
def mkDateTime (y mo d h mi s : ℕ) : Option DateTime :=
  if 1 ≤ y ∧ 1 ≤ mo ∧ mo ≤ 12 ∧ 1 ≤ d ∧ d ≤ daysInMonth y mo ∧
      h < 24 ∧ mi < 60 ∧ s < 60 then
    some ⟨y, mo, d, h, mi, s⟩
  else none

/-- `parse_date` on the character list of the input: accepts the canonical
zero-padded `YYYY-MM-DD` and `YYYY-MM-DD HH:MM:SS` forms. -/
def parseDateList : List Char → Option DateTime
  | [y3, y2, y1, y0, c1, m1, m0, c2, d1, d0] =>
    if (y3.isDigit && y2.isDigit && y1.isDigit && y0.isDigit &&
        (c1 = '-') && m1.isDigit && m0.isDigit && (c2 = '-') &&
        d1.isDigit && d0.isDigit) then
      mkDateTime
        (((digVal y3 * 10 + digVal y2) * 10 + digVal y1) * 10 + digVal y0)
        (digVal m1 * 10 + digVal m0) (digVal d1 * 10 + digVal d0) 0 0 0
    else none
  | [y3, y2, y1, y0, c1, m1, m0, c2, d1, d0, sp, h1, h0, c3, i1, i0, c4,
      s1, s0] =>
    if (y3.isDigit && y2.isDigit && y1.isDigit && y0.isDigit &&
        (c1 = '-') && m1.isDigit && m0.isDigit && (c2 = '-') &&
        d1.isDigit && d0.isDigit && (sp = ' ') && h1.isDigit && h0.isDigit &&
        (c3 = ':') && i1.isDigit && i0.isDigit && (c4 = ':') &&
        s1.isDigit && s0.isDigit) then
      mkDateTime
        (((digVal y3 * 10 + digVal y2) * 10 + digVal y1) * 10 + digVal y0)
        (digVal m1 * 10 + digVal m0) (digVal d1 * 10 + digVal d0)
        (digVal h1 * 10 + digVal h0) (digVal i1 * 10 + digVal i0)
        (digVal s1 * 10 + digVal s0)
    else none
  | _ => none

/-- `parse_date(date_text)`: try `%Y-%m-%d`, then `%Y-%m-%d %H:%M:%S`;
`none` models the uncaught `ValueError` when both formats fail. -/
def parse_date (s : String) : Option DateTime := parseDateList s.toList

/-! ## Float parsing (Python `float(s)` on the provider's decimal strings) -/

/-- Numeric value of a list of digit characters, most significant first. -/
def natOfDigits (l : List Char) : ℕ := l.foldl (fun a c => a * 10 + digVal c) 0

/-- `float(s)` on sign + decimal-digit strings (the form the provider emits;
exponents and special values never occur in its payloads). -/
def parseFloatChars (l : List Char) : Option ℚ :=
  let sr : ℚ × List Char :=
    match l with
    | '-' :: r => (-1, r)
    | '+' :: r => (1, r)
    | r => (1, r)
  let ip := sr.2.takeWhile Char.isDigit
  let rest := sr.2.drop ip.length
  match rest with
  | [] => if ip.isEmpty then none else some (sr.1 * (natOfDigits ip : ℚ))
  | '.' :: fr =>
    if fr.all Char.isDigit ∧ ¬(ip.isEmpty ∧ fr.isEmpty) then
      some (sr.1 * ((natOfDigits ip : ℚ) +
        (natOfDigits fr : ℚ) / ((10 : ℚ) ^ fr.length)))
    else none
  | _ => none

/-- `float(s)` for a string. -/
def parseFloat (s : String) : Option ℚ := parseFloatChars s.toList

/-! ## Provider response model and `extract_time_series_from_response` -/

/-- A per-date field mapping of the raw payload (field name → string value). -/
abbrev FieldMap := List (String × String)

/-- A top-level value of the provider's JSON response: either a string
(error/note/info messages) or a time-series mapping. -/
inductive DVal where
  | str (s : String)
  | ts (entries : List (String × FieldMap))
deriving DecidableEq, Repr

/-- The provider's JSON response object: ordered keys, as a Python dict. -/
abbrev ApiResponse := List (String × DVal)

/-- `data[k]` / `k in data` on the response dict. -/
def lookupKey (data : ApiResponse) (k : String) : Option DVal :=
  (data.find? fun kv => kv.1 = k).map (·.2)

/-- Python `pat in v`: substring test on a string value, key-membership
test on a dict value. -/
def dvalContains (v : DVal) (pat : String) : Bool :=
  match v with
  | .str s => strContains s pat
  | .ts entries => entries.any fun kv => kv.1 = pat

/-- `extract_time_series_from_response(data)`: first key containing
`"Time Series"` wins; otherwise classify `Error Message` / `Note` /
`Information` shapes, else a generic unexpected-format error. -/
def extract_time_series_from_response (data : ApiResponse) :
    Except Err (String × DVal) :=
  match data.find? (fun kv => strContains kv.1 "Time Series") with
  | some kv => .ok kv
  | none =>
    match lookupKey data "Error Message" with
    | some v =>
      if dvalContains v "Invalid API call" ||
          dvalContains v "Invalid stock symbol" then
        .error .stockSymbolNotFound
      else .error .runtimeError
    | none =>
      match lookupKey data "Note" with
      | some v =>
        if dvalContains v "API call frequency" then .error .apiRateLimit
        else
          match v with
          | .str s =>
            if strContains (pyLower s) "rate limit" then .error .apiRateLimit
            else .error .runtimeError
          | .ts _ => .error .attributeError
      | none =>
        match lookupKey data "Information" with
        | some _ => .error .runtimeError
        | none => .error .runtimeError

/-! ## Fetch stage (`fetch_stock_rows_from_alpha_vantage`) -/

/-- `alpha_function_for_period(period, intraday_interval)`. -/
def alpha_function_for_period (period : String) (intraday_interval : String) :
    String × List (String × String) :=
  let p := pyLower period
  if p = "intraday" then
    ("TIME_SERIES_INTRADAY", [("interval", intraday_interval),
      ("adjusted", "true")])
  else if p = "daily" then ("TIME_SERIES_DAILY", [])
  else if p = "weekly" then ("TIME_SERIES_WEEKLY", [])
  else if p = "monthly" then ("TIME_SERIES_MONTHLY", [])
  else ("TIME_SERIES_DAILY", [])

/-- The outbound request the fetch stage assembles. -/
structure Request where
  function : String
  symbol : String
  outputsize : String
  apikey : String
  extra : List (String × String)
deriving DecidableEq, Repr

/-- One field of one raw record: dict lookup then `float(...)`; a missing
key (`KeyError`) or an unconvertible value (`ValueError`) is re-raised by
the source as `RuntimeError`. -/
def getFloat (values : FieldMap) (k : String) : Except Err ℚ :=
  match values.find? (fun kv => kv.1 = k) with
  | none => .error .runtimeError
  | some kv =>
    match parseFloat kv.2 with
    | none => .error .runtimeError
    | some q => .ok q

/-- One row of the normalized output of the fetch stage. -/
def buildRow (e : String × FieldMap) : Except Err Row := do
  let o ← getFloat e.2 "1. open"
  let h ← getFloat e.2 "2. high"
  let l ← getFloat e.2 "3. low"
  let c ← getFloat e.2 "4. close"
  .ok ⟨e.1, o, h, l, c⟩

/-- Python falsiness of the extracted time-series value
(`not time_series or len(time_series) == 0`). -/
def dvalEmpty : DVal → Bool
  | .str s => s.isEmpty
  | .ts entries => entries.isEmpty

/-- The deterministic tail of the fetch stage, from the parsed JSON body
onward: extract the series, fail with `NoDataAvailableError` when it is
empty, then format each record (a string-valued series would hit
`.items()` and raise `AttributeError`). -/
def processPayload (data : ApiResponse) : Except Err (List Row) := do
  let kv ← extract_time_series_from_response data
  if dvalEmpty kv.2 then .error .noDataAvailable
  else
    match kv.2 with
    | .str _ => .error .attributeError
    | .ts entries => entries.mapM buildRow

/-- `fetch_stock_rows_from_alpha_vantage`. The process environment and the
HTTP transport are explicit parameters (`transport` returns the parsed JSON
body or the error kind the `requests` error handling maps a transport
failure to). Note the source discards the `api_key` argument: the
credential is re-read from `ALPHA_VANTAGE_API_KEY` unconditionally. -/
def fetch_stock_rows_from_alpha_vantage (env : String → Option String)
    (transport : Request → Except Err ApiResponse) (symbol : String)
    (period : String) (api_key : Option String) (outputsize : String)
    (intraday_interval : String) : Except Err (List Row) :=
  if pyStrip symbol = "" then .error .valueError
  else
    let symbolU := pyUpper (pyStrip symbol)
    match env "ALPHA_VANTAGE_API_KEY" with
    | none => .error .valueError
    | some key =>
      if key = "" then .error .valueError
      else
        let fe := alpha_function_for_period period intraday_interval
        match transport ⟨fe.1, symbolU, outputsize, key, fe.2⟩ with
        | .error e => .error e
        | .ok data => processPayload data

/-! ## Sorting by date string (Python `list.sort(key=lambda r: r["date"])`) -/

/-- Row comparison by the `date` field under Python string order. -/
def rowLe (a b : Row) : Prop := strLe a.date b.date = true

instance : DecidableRel rowLe := fun a b =>
  show Decidable (strLe a.date b.date = true) from inferInstance

/-- `rows.sort(key=lambda r: r["date"])`: a stable sort by date string. -/
def sortRows (l : List Row) : List Row := List.insertionSort rowLe l

/-! ## `filter_by_date` -/

/-- `start <= date_obj <= end` on the numeric datetime key. -/
def inWindow (s e : ℕ) (t : DateTime) : Bool := decide (s ≤ dtKey t ∧ dtKey t ≤ e)

/-- The filtering loop of `filter_by_date`: each row's date is parsed
(an unparseable one raises `ValueError`), in-window rows are kept. -/
def filterRows (s e : ℕ) : List Row → Except Err (List Row)
  | [] => .ok []
  | r :: rs =>
    match parse_date r.date with
    | none => .error .valueError
    | some t => do
      let rest ← filterRows s e rs
      .ok (if inWindow s e t then r :: rest else rest)

/-- `filter_by_date(rows, start_date, end_date)`: parse and validate the
bounds, keep rows inside the closed window, raise `NoDataAvailableError`
when nothing is left, sort the survivors by date string. -/
def filter_by_date (rows : List Row) (start_date end_date : String) :
    Except Err (List Row) :=
  match parse_date start_date, parse_date end_date with
  | some s, some e =>
    if dtKey e < dtKey s then .error .valueError
    else do
      let kept ← filterRows (dtKey s) (dtKey e) rows
      if kept.isEmpty then .error .noDataAvailable
      else .ok (sortRows kept)
  | _, _ => .error .valueError

/-! ## `group_by_period` -/

/-- The group label of one record (`f"{year}-W{week:02d}"`). -/
def weekLabel (t : DateTime) : String :=
  decStr (isoPair t.year t.month t.day).1 ++ "-W" ++
    pad2 (isoPair t.year t.month t.day).2

/-- The group label of one record (`f"{date_obj.year}-{date_obj.month:02d}"`). -/
def monthLabel (t : DateTime) : String := decStr t.year ++ "-" ++ pad2 t.month

/-- The group label assigned in the bucketing loop: ISO week for `weekly`,
calendar month for `monthly`, the raw date string otherwise. -/
def rowLabel (period : String) (t : DateTime) (dateStr : String) : String :=
  if period = "weekly" then weekLabel t
  else if period = "monthly" then monthLabel t
  else dateStr

/-- The bucketing loop's label computation over all rows: every row's date
is parsed first (`parse_date` there raises on an unparseable date even when
the label does not need it). -/
def labelRows (period : String) : List Row → Except Err (List (String × Row))
  | [] => .ok []
  | r :: rs =>
    match parse_date r.date with
    | none => .error .valueError
    | some t => do
      let rest ← labelRows period rs
      .ok ((rowLabel period t r.date, r) :: rest)

/-- The bucket accumulator, a Python dict of lists in insertion order:
append to the (unique) existing bucket with this key, else add a new bucket
at the end. -/
def addToGroups (gs : List (String × List Row)) (label : String) (r : Row) :
    List (String × List Row) :=
  match gs with
  | [] => [(label, [r])]
  | g :: rest =>
    if g.1 = label then (g.1, g.2 ++ [r]) :: rest
    else g :: addToGroups rest label r

/-- `grouped_data` after the bucketing loop. -/
def buildGroups (pairs : List (String × Row)) : List (String × List Row) :=
  pairs.foldl (fun gs p => addToGroups gs p.1 p.2) []

/-- `max(...)` over a non-empty sequence given as head and tail. -/
def listMax (x : ℚ) (l : List ℚ) : ℚ := l.foldl max x

/-- `min(...)` over a non-empty sequence given as head and tail. -/
def listMin (x : ℚ) (l : List ℚ) : ℚ := l.foldl min x

/-- Fold one bucket into one record: sort the members by date string, take
`open` of the first and `close` of the last, `max`/`min` of highs/lows.
(The empty case never arises: buckets hold at least the row that created
them.) -/
def combineGroup (g : String × List Row) : Row :=
  match List.insertionSort rowLe g.2 with
  | [] => ⟨g.1, 0, 0, 0, 0⟩
  | r :: rs =>
    ⟨g.1, r.«open», listMax r.high (rs.map (·.high)),
      listMin r.low (rs.map (·.low)), (rs.getLastD r).close⟩

/-- `group_by_period(data_rows, period)`: pass `intraday`/`daily` through
sorted; otherwise bucket by label, fold each bucket, and sort the folded
records by their label string. -/
def group_by_period (rows : List Row) (period : String) :
    Except Err (List Row) :=
  if period = "intraday" ∨ period = "daily" then .ok (sortRows rows)
  else do
    let pairs ← labelRows period rows
    .ok (sortRows ((buildGroups pairs).map combineGroup))

/-! ## Series assembly (the chart-data preparation of `render_chart` /
`generate_chart_for_web`) -/

/-- The chart-series model handed to the rendering sink. -/
structure ChartSeriesModel where
  x_labels : List String
  series : List (String × List ℚ)
deriving DecidableEq, Repr

/-- x-labels from the `date` of each aggregated record, four series named
`Open`, `High`, `Low`, `Close` from the corresponding fields, in record
order. -/
def assemble (grouped : List Row) : ChartSeriesModel :=
  ⟨grouped.map (·.date),
    [("Open", grouped.map (·.«open»)), ("High", grouped.map (·.high)),
      ("Low", grouped.map (·.low)), ("Close", grouped.map (·.close))]⟩

/-- The data pipeline of `generate_chart_for_web` / `generate_chart_from_api`
up to the series model handed to the chart library:
fetch → date filter → period aggregation → series assembly. -/
def run_pipeline (env : String → Option String)
    (transport : Request → Except Err ApiResponse) (symbol : String)
    (period : String) (start_date end_date : String) (api_key : Option String)
    (intraday_interval : String) : Except Err ChartSeriesModel := do
  let all ← fetch_stock_rows_from_alpha_vantage env transport symbol period
    api_key "full" intraday_interval
  let filtered ← filter_by_date all start_date end_date
  let grouped ← group_by_period filtered period
  .ok (assemble grouped)

/-! ## Predicates used to state the verified properties -/

/-- The OHLC record invariant: `high >= max(open, close, low)` and
`low <= min(open, close, high)`. -/
def ohlcInv (r : Row) : Prop :=
  max (max r.«open» r.close) r.low ≤ r.high ∧
    r.low ≤ min (min r.«open» r.close) r.high

instance (r : Row) : Decidable (ohlcInv r) :=
  show Decidable (max (max r.«open» r.close) r.low ≤ r.high ∧
    r.low ≤ min (min r.«open» r.close) r.high) from inferInstance

/-- The bucket label the grouping loop computes for a record, `none` when
its date does not parse. -/
def labelOfRow (period : String) (r : Row) : Option String :=
  (parse_date r.date).map fun t => rowLabel period t r.date

/-- Whether a record's parsed date lies in the closed window `[s, e]`
(dates that do not parse never pass the filter: they raise instead). -/
def inWindowRow (s e : ℕ) (r : Row) : Bool :=
  match parse_date r.date with
  | some t => inWindow s e t
  | none => false

/-- The members of the bucket labelled `L`: the input records whose computed
group label is `L`, in input order. -/
def bucketOf (rows : List Row) (period : String) (L : String) : List Row :=
  rows.filter fun x => labelOfRow period x = some L

/-- The member list of the bucket keyed `L` (empty when there is no such
bucket): the dict lookup on the accumulated groups. -/
def groupMembers (gs : List (String × List Row)) (L : String) : List Row :=
  ((gs.find? fun g => g.1 = L).map Prod.snd).getD []

instance {ε α : Type} [DecidableEq ε] [DecidableEq α] :
    DecidableEq (Except ε α) := fun x y =>
  match x, y with
  | .ok a, .ok b =>
    if h : a = b then .isTrue (by rw [h])
    else .isFalse fun hh => h (Except.ok.inj hh)
  | .ok _, .error _ => .isFalse fun hh => Except.noConfusion hh
  | .error _, .ok _ => .isFalse fun hh => Except.noConfusion hh
  | .error e, .error f =>
    if h : e = f then .isTrue (by rw [h])
    else .isFalse fun hh => h (Except.error.inj hh)

/-! # Theorems

## Python string order: reflexive, total, transitive -/

theorem charListLe_refl : ∀ l : List Char, charListLe l l = true
  | [] => rfl
  | c :: cs => by simp [charListLe, charListLe_refl cs]

theorem charListLe_total (l₁ l₂ : List Char) :
    charListLe l₁ l₂ = true ∨ charListLe l₂ l₁ = true := by
  induction l₁ generalizing l₂ with
  | nil => left; rfl
  | cons c cs ih =>
    cases l₂ with
    | nil => right; rfl
    | cons d ds =>
      by_cases hcd : c = d
      · subst hcd
        rcases ih ds with h | h
        · left; simpa [charListLe] using h
        · right; simpa [charListLe] using h
      · rcases lt_or_gt_of_ne hcd with h | h
        · left; simp [charListLe, hcd, charLt, h]
        · right; simp [charListLe, Ne.symm hcd, charLt, h]

theorem charListLe_trans : ∀ {l₁ l₂ l₃ : List Char},
    charListLe l₁ l₂ = true → charListLe l₂ l₃ = true →
      charListLe l₁ l₃ = true
  | [], _, _, _, _ => rfl
  | _ :: _, [], _, h, _ => by simp [charListLe] at h
  | _ :: _, _ :: _, [], _, h => by simp [charListLe] at h
  | c :: cs, d :: ds, e :: es, h₁, h₂ => by
    by_cases hcd : c = d <;> by_cases hde : d = e
    · subst hcd; subst hde
      simp only [charListLe, if_pos rfl] at h₁ h₂ ⊢
      exact charListLe_trans h₁ h₂
    · subst hcd
      simpa [charListLe, hde] using h₂
    · subst hde
      simpa [charListLe, hcd] using h₁
    · simp only [charListLe, if_neg hcd] at h₁
      simp only [charListLe, if_neg hde] at h₂
      simp only [charLt, decide_eq_true_eq] at h₁ h₂
      have hce : c < e := lt_trans h₁ h₂
      simp [charListLe, ne_of_lt hce, charLt, hce]

theorem strLe_refl (s : String) : strLe s s = true := charListLe_refl _

theorem strLe_total (s t : String) : strLe s t = true ∨ strLe t s = true :=
  charListLe_total _ _

theorem strLe_trans {s t u : String} (h₁ : strLe s t = true)
    (h₂ : strLe t u = true) : strLe s u = true :=
  charListLe_trans h₁ h₂

instance : IsTotal Row rowLe := ⟨fun a b => strLe_total a.date b.date⟩

instance : IsTrans Row rowLe := ⟨fun _ _ _ => strLe_trans⟩

instance : IsRefl Row rowLe := ⟨fun a => strLe_refl a.date⟩

/-! ## Sorting facts for `sortRows` -/

theorem sortRows_perm (l : List Row) : List.Perm (sortRows l) l :=
  List.perm_insertionSort rowLe l

theorem sortRows_sorted (l : List Row) : List.Sorted rowLe (sortRows l) :=
  List.sorted_insertionSort rowLe l

theorem sortRows_mem {l : List Row} {x : Row} : x ∈ sortRows l ↔ x ∈ l :=
  List.mem_insertionSort rowLe

theorem getLastD_mem : ∀ (l : List Row) (a : Row), l.getLastD a ∈ a :: l
  | [], _ => List.mem_singleton.mpr rfl
  | b :: bs, a => by
    rw [List.getLastD_cons]
    exact List.mem_cons_of_mem _ (getLastD_mem bs b)

theorem rowLe_trans {a b c : Row} (h₁ : rowLe a b) (h₂ : rowLe b c) :
    rowLe a c := strLe_trans h₁ h₂

theorem sorted_le_getLastD : ∀ {l : List Row} {a : Row},
    List.Sorted rowLe (a :: l) → ∀ x ∈ a :: l, rowLe x (l.getLastD a)
  | [], a, _, x, hx => by
    rcases List.mem_singleton.mp hx with rfl
    exact refl_of rowLe x
  | b :: bs, a, hs, x, hx => by
    rw [List.getLastD_cons]
    rcases List.mem_cons.mp hx with rfl | hx'
    · exact rowLe_trans (List.rel_of_sorted_cons hs b (List.mem_cons_self _ _))
        (sorted_le_getLastD (List.Sorted.of_cons hs) b (List.mem_cons_self _ _))
    · exact sorted_le_getLastD (List.Sorted.of_cons hs) x hx'

theorem sorted_head_le {l : List Row} {a : Row}
    (hs : List.Sorted rowLe (a :: l)) : ∀ x ∈ a :: l, rowLe a x := by
  intro x hx
  rcases List.mem_cons.mp hx with rfl | hx'
  · exact refl_of rowLe x
  · exact List.rel_of_sorted_cons hs x hx'

/-! ## C10: the fetch result does not depend on the `api_key` argument -/

/-- C10: `fetch_stock_rows_from_alpha_vantage` ignores its `api_key`
parameter: any two calls that differ only in the passed key behave
identically, because the credential is unconditionally re-read from the
`ALPHA_VANTAGE_API_KEY` environment variable. -/
theorem fetch_ignores_api_key (env : String → Option String)
    (transport : Request → Except Err ApiResponse) (symbol period : String)
    (k₁ k₂ : Option String) (outputsize intraday_interval : String) :
    fetch_stock_rows_from_alpha_vantage env transport symbol period k₁
        outputsize intraday_interval =
      fetch_stock_rows_from_alpha_vantage env transport symbol period k₂
        outputsize intraday_interval := rfl

/-! ## C8: series assembly preserves order, names and lengths -/

/-- C8: `assemble` produces x-labels equal to the bucket labels in record
order (no re-sort), exactly the four series `Open`, `High`, `Low`, `Close`
holding the correspondingly-named field per record in the same order, and
every series has the length of `x_labels`, which is the number of records. -/
theorem assemble_spec (grouped : List Row) :
    (assemble grouped).x_labels = grouped.map Row.date ∧
    (assemble grouped).series.map Prod.fst = ["Open", "High", "Low", "Close"] ∧
    (assemble grouped).series =
      [("Open", grouped.map Row.«open»), ("High", grouped.map Row.high),
        ("Low", grouped.map Row.low), ("Close", grouped.map Row.close)] ∧
    (assemble grouped).x_labels.length = grouped.length ∧
    (∀ s ∈ (assemble grouped).series,
      s.2.length = (assemble grouped).x_labels.length) := by
  refine ⟨rfl, rfl, rfl, List.length_map _ _, ?_⟩
  intro s hs
  simp only [assemble, List.mem_cons, List.not_mem_nil, or_false] at hs
  rcases hs with rfl | rfl | rfl | rfl <;> simp [assemble]

/-- Witness for C8 at a concrete record list. -/
theorem assemble_spec_witness :
    (assemble [⟨"2024-01", 1, 2, 0, 1⟩, ⟨"2024-02", 3, 4, 2, 3⟩]).x_labels =
        ["2024-01", "2024-02"] ∧
      (assemble [⟨"2024-01", 1, 2, 0, 1⟩, ⟨"2024-02", 3, 4, 2, 3⟩]).series.map
          Prod.fst = ["Open", "High", "Low", "Close"] := by
  have h := assemble_spec [⟨"2024-01", 1, 2, 0, 1⟩, ⟨"2024-02", 3, 4, 2, 3⟩]
  exact ⟨h.1, h.2.1⟩

/-! ## C6: invalid-symbol error payloads raise `StockSymbolNotFoundError` -/

/-- C6: when the response has no time-series key but carries an
`Error Message` string mentioning invalid-symbol phrasing
(`"Invalid API call"` or `"Invalid stock symbol"` as substrings), the fetch
stage fails with the `StockSymbolNotFoundError` kind, not a generic error. -/
theorem symbol_not_found_on_invalid_symbol_payload
    (env : String → Option String)
    (transport : Request → Except Err ApiResponse)
    (symbol period : String) (k : Option String)
    (outputsize intraday_interval key msg : String) (data : ApiResponse)
    (hsym : pyStrip symbol ≠ "")
    (henv : env "ALPHA_VANTAGE_API_KEY" = some key) (hkey : key ≠ "")
    (htr : ∀ q, transport q = .ok data)
    (hnots : ∀ kv ∈ data, strContains kv.1 "Time Series" = false)
    (herr : lookupKey data "Error Message" = some (.str msg))
    (hmsg : strContains msg "Invalid API call" = true ∨
      strContains msg "Invalid stock symbol" = true) :
    fetch_stock_rows_from_alpha_vantage env transport symbol period k
        outputsize intraday_interval = .error .stockSymbolNotFound := by
  have hfind : data.find? (fun kv => strContains kv.1 "Time Series") = none :=
    List.find?_eq_none.mpr fun kv hkv => by simp [hnots kv hkv]
  have hc : (dvalContains (.str msg) "Invalid API call" ||
      dvalContains (.str msg) "Invalid stock symbol") = true := by
    rcases hmsg with h | h <;> simp [dvalContains, h]
  have hex : extract_time_series_from_response data =
      .error .stockSymbolNotFound := by
    simp only [extract_time_series_from_response, hfind, herr, hc]
    simp
  simp only [fetch_stock_rows_from_alpha_vantage, if_neg hsym, henv, htr,
    if_neg hkey, processPayload, hex, Bind.bind, Except.bind]

/-- Witness for C6: a concrete invalid-symbol payload. -/
theorem symbol_not_found_on_invalid_symbol_payload_witness :
    fetch_stock_rows_from_alpha_vantage (fun _ => some "demo")
        (fun _ => .ok [("Error Message",
          .str "Invalid API call... Invalid stock symbol")])
        "IBM" "daily" none "full" "60min" = .error .stockSymbolNotFound :=
  symbol_not_found_on_invalid_symbol_payload _ _ _ _ _ _ _ "demo"
    "Invalid API call... Invalid stock symbol"
    [("Error Message", .str "Invalid API call... Invalid stock symbol")]
    (by decide) rfl (by decide) (fun _ => rfl) (by decide) rfl
    (Or.inl (by decide))

/-! ## C1: an empty time-series payload fails at the fetch stage -/

/-- C1 counterexample: with a provider response whose time-series mapping is
present but empty, the fetch stage itself already fails with the
`NoDataAvailableError` kind — refuting the claim that the fetch/parse stage
does not fail on an empty payload and that `NoDataAvailable` is never
raised before the `DateRangeFilter` stage (`charts.py` lines 152–157). -/
theorem noData_at_fetch_counterexample :
    fetch_stock_rows_from_alpha_vantage (fun _ => some "demo")
        (fun _ => .ok [("Time Series (Daily)", DVal.ts [])])
        "IBM" "daily" none "full" "60min" = .error .noDataAvailable := rfl

/-- C1 amended: whenever the provider response's extracted time series is
empty, `fetch_stock_rows_from_alpha_vantage` raises `NoDataAvailableError`
itself, before any date filtering. -/
theorem noData_raised_at_fetch_on_empty_payload
    (env : String → Option String)
    (transport : Request → Except Err ApiResponse)
    (symbol period : String) (k : Option String)
    (outputsize intraday_interval key tsKey : String) (data : ApiResponse)
    (hsym : pyStrip symbol ≠ "")
    (henv : env "ALPHA_VANTAGE_API_KEY" = some key) (hkey : key ≠ "")
    (htr : ∀ q, transport q = .ok data)
    (hex : extract_time_series_from_response data = .ok (tsKey, DVal.ts [])) :
    fetch_stock_rows_from_alpha_vantage env transport symbol period k
        outputsize intraday_interval = .error .noDataAvailable := by
  simp only [fetch_stock_rows_from_alpha_vantage, if_neg hsym, henv, htr,
    if_neg hkey, processPayload, hex, Bind.bind, Except.bind]
  simp [dvalEmpty]

/-- Witness for the amended C1 theorem at a concrete empty payload. -/
theorem noData_raised_at_fetch_on_empty_payload_witness :
    fetch_stock_rows_from_alpha_vantage (fun _ => some "demo")
        (fun _ => .ok [("Time Series (Daily)", DVal.ts [])])
        "MSFT" "weekly" (some "k") "full" "60min" =
      .error .noDataAvailable :=
  noData_raised_at_fetch_on_empty_payload _ _ _ _ _ _ _ "demo"
    "Time Series (Daily)" [("Time Series (Daily)", DVal.ts [])]
    (by decide) rfl (by decide) (fun _ => rfl) rfl

/-! ## C2: the date-range filter -/

theorem filterRows_eq_filter {s e : ℕ} {rows : List Row}
    (h : ∀ r ∈ rows, (parse_date r.date).isSome) :
    filterRows s e rows = .ok (rows.filter (inWindowRow s e)) := by
  induction rows with
  | nil => rfl
  | cons r rs ih =>
    obtain ⟨t, ht⟩ := Option.isSome_iff_exists.mp (h r (List.mem_cons_self r rs))
    rw [List.filter_cons]
    have hw : inWindowRow s e r = inWindow s e t := by
      simp [inWindowRow, ht]
    simp only [filterRows, ht, ih fun x hx => h x (List.mem_cons_of_mem r hx),
      Bind.bind, Except.bind, hw]

/-- C2 counterexample: the bounds are parsed as plain dates (midnight), so a
record dated on the end date with a time-of-day component (here
`2024-01-31 10:00:00` against the window `2024-01-01`–`2024-01-31`) is
*not* kept — refuting "a record dated on end_date at any time of day is
kept". With this single record nothing survives and the filter raises the
`NoDataAvailableError` kind instead of returning the record. -/
theorem filter_end_of_day_excluded_counterexample :
    filter_by_date [⟨"2024-01-31 10:00:00", 1, 2, 0, 1⟩]
        "2024-01-01" "2024-01-31" = .error .noDataAvailable := rfl

/-- C2 amended: for parseable bounds with start ≤ end and records whose
dates all parse, whenever at least one record's parsed datetime lies in the
closed interval from start (at midnight) to end (at midnight),
`filter_by_date` returns exactly the records in that interval — no others,
each of them — sorted ascending by date string. -/
theorem filter_by_date_spec (rows : List Row) (sd ed : String) (s e : DateTime)
    (hs : parse_date sd = some s) (he : parse_date ed = some e)
    (hrange : dtKey s ≤ dtKey e)
    (hparse : ∀ r ∈ rows, (parse_date r.date).isSome)
    (hne : rows.filter (inWindowRow (dtKey s) (dtKey e)) ≠ []) :
    ∃ out, filter_by_date rows sd ed = .ok out ∧
      List.Perm out (rows.filter (inWindowRow (dtKey s) (dtKey e))) ∧
      List.Sorted rowLe out ∧
      (∀ r ∈ out, inWindowRow (dtKey s) (dtKey e) r = true) ∧
      (∀ r ∈ rows, inWindowRow (dtKey s) (dtKey e) r = true → r ∈ out) := by
  have hfr := @filterRows_eq_filter (dtKey s) (dtKey e) rows hparse
  refine ⟨sortRows (rows.filter (inWindowRow (dtKey s) (dtKey e))),
    ?_, sortRows_perm _, sortRows_sorted _, ?_, ?_⟩
  · have hemp : (rows.filter (inWindowRow (dtKey s) (dtKey e))).isEmpty =
        false := by
      simpa [List.isEmpty_iff] using hne
    simp only [filter_by_date, hs, he]
    rw [if_neg (not_lt.mpr hrange)]
    simp only [Bind.bind, Except.bind, hfr, hemp]
    simp [sortRows]
  · intro r hr
    exact (List.mem_filter.mp (sortRows_mem.mp hr)).2
  · intro r hr hw
    exact sortRows_mem.mpr (List.mem_filter.mpr ⟨hr, hw⟩)

/-- Witness for the amended C2 theorem at a concrete window. -/
theorem filter_by_date_spec_witness :
    ∃ out, filter_by_date [⟨"2024-02-05", 3, 4, 2, 3⟩, ⟨"2024-01-05", 1, 2, 0, 1⟩]
        "2024-01-01" "2024-01-31" = .ok out ∧
      List.Perm out ([⟨"2024-02-05", 3, 4, 2, 3⟩,
        ⟨"2024-01-05", 1, 2, 0, 1⟩].filter
          (inWindowRow (dtKey ⟨2024, 1, 1, 0, 0, 0⟩)
            (dtKey ⟨2024, 1, 31, 0, 0, 0⟩))) ∧
      List.Sorted rowLe out ∧
      (∀ r ∈ out, inWindowRow (dtKey ⟨2024, 1, 1, 0, 0, 0⟩)
        (dtKey ⟨2024, 1, 31, 0, 0, 0⟩) r = true) ∧
      (∀ r ∈ [⟨"2024-02-05", 3, 4, 2, 3⟩, ⟨"2024-01-05", 1, 2, 0, 1⟩],
        inWindowRow (dtKey ⟨2024, 1, 1, 0, 0, 0⟩)
          (dtKey ⟨2024, 1, 31, 0, 0, 0⟩) r = true → r ∈ out) :=
  filter_by_date_spec _ _ _ ⟨2024, 1, 1, 0, 0, 0⟩ ⟨2024, 1, 31, 0, 0, 0⟩
    rfl rfl (by decide) (by decide) (by decide)

/-! ## Bucket-accumulator facts -/

theorem groupMembers_cons_ne {g : String × List Row}
    {rest : List (String × List Row)} {L : String} (h : g.1 ≠ L) :
    groupMembers (g :: rest) L = groupMembers rest L := by
  rw [groupMembers, List.find?_cons_of_neg _ (by simp [h]), groupMembers]

theorem groupMembers_cons_eq {g : String × List Row}
    {rest : List (String × List Row)} {L : String} (h : g.1 = L) :
    groupMembers (g :: rest) L = g.2 := by
  rw [groupMembers, List.find?_cons_of_pos _ (by simp [h])]
  rfl

theorem groupMembers_addToGroups (gs : List (String × List Row))
    (lab L : String) (r : Row) :
    groupMembers (addToGroups gs lab r) L =
      if lab = L then groupMembers gs L ++ [r] else groupMembers gs L := by
  induction gs with
  | nil =>
    by_cases h : lab = L
    · rw [if_pos h, show addToGroups [] lab r = [(lab, [r])] from rfl,
        groupMembers_cons_eq h]
      rfl
    · rw [if_neg h, show addToGroups [] lab r = [(lab, [r])] from rfl,
        groupMembers_cons_ne h]
  | cons g rest ih =>
    by_cases hg : g.1 = lab
    · have e1 : addToGroups (g :: rest) lab r = (g.1, g.2 ++ [r]) :: rest := by
        simp [addToGroups, hg]
      by_cases h : lab = L
      · rw [if_pos h, e1,
          show groupMembers ((g.1, g.2 ++ [r]) :: rest) L = g.2 ++ [r] from
            groupMembers_cons_eq (hg.trans h),
          groupMembers_cons_eq (hg.trans h)]
      · have hgL : g.1 ≠ L := fun he => h (hg ▸ he)
        rw [if_neg h, e1,
          show groupMembers ((g.1, g.2 ++ [r]) :: rest) L =
              groupMembers rest L from groupMembers_cons_ne hgL,
          groupMembers_cons_ne hgL]
    · have e1 : addToGroups (g :: rest) lab r = g :: addToGroups rest lab r := by
        simp [addToGroups, hg]
      by_cases h : g.1 = L
      · have hlL : lab ≠ L := fun he => hg (h ▸ he ▸ rfl)
        rw [if_neg hlL, e1, groupMembers_cons_eq h, groupMembers_cons_eq h]
      · rw [e1, groupMembers_cons_ne h, groupMembers_cons_ne h, ih]

theorem buildGroups_go_members (pairs : List (String × Row)) :
    ∀ (gs : List (String × List Row)) (L : String),
    groupMembers (pairs.foldl (fun gs p => addToGroups gs p.1 p.2) gs) L =
      groupMembers gs L ++ (pairs.filter (fun p => p.1 = L)).map Prod.snd := by
  induction pairs with
  | nil => intro gs L; simp
  | cons p ps ih =>
    intro gs L
    rw [List.foldl_cons, ih, groupMembers_addToGroups, List.filter_cons]
    by_cases h : p.1 = L
    · simp [h]
    · simp [h]

theorem buildGroups_members (pairs : List (String × Row)) (L : String) :
    groupMembers (buildGroups pairs) L =
      (pairs.filter (fun p => p.1 = L)).map Prod.snd := by
  simpa [groupMembers] using buildGroups_go_members pairs [] L

theorem addToGroups_not_mem {gs : List (String × List Row)} {lab : String}
    (r : Row) (h : lab ∉ gs.map Prod.fst) :
    addToGroups gs lab r = gs ++ [(lab, [r])] := by
  induction gs with
  | nil => rfl
  | cons g rest ih =>
    have hg : g.1 ≠ lab := by
      intro he
      apply h
      rw [← he]
      exact List.mem_map_of_mem Prod.fst (List.mem_cons_self g rest)
    have hrest : lab ∉ rest.map Prod.fst := by
      intro hm
      apply h
      rw [List.map_cons]
      exact List.mem_cons_of_mem _ hm
    simp [addToGroups, hg, ih hrest]

theorem keys_addToGroups_mem {gs : List (String × List Row)} {lab : String}
    (r : Row) (h : lab ∈ gs.map Prod.fst) :
    (addToGroups gs lab r).map Prod.fst = gs.map Prod.fst := by
  induction gs with
  | nil => simp at h
  | cons g rest ih =>
    by_cases hg : g.1 = lab
    · simp [addToGroups, hg]
    · rw [List.map_cons] at h
      have hm : lab ∈ rest.map Prod.fst := by
        rcases List.mem_cons.mp h with he | hm
        · exact absurd he.symm hg
        · exact hm
      simp [addToGroups, hg, ih hm]

theorem keys_addToGroups_sub {gs : List (String × List Row)} {lab L : String}
    {r : Row} (h : L ∈ (addToGroups gs lab r).map Prod.fst) :
    L ∈ gs.map Prod.fst ∨ L = lab := by
  by_cases hm : lab ∈ gs.map Prod.fst
  · rw [keys_addToGroups_mem r hm] at h; exact Or.inl h
  · rw [addToGroups_not_mem r hm, List.map_append] at h
    rcases List.mem_append.mp h with hl | hr
    · exact Or.inl hl
    · right; simpa using hr

theorem keys_nodup_addToGroups {gs : List (String × List Row)} {lab : String}
    (r : Row) (h : (gs.map Prod.fst).Nodup) :
    ((addToGroups gs lab r).map Prod.fst).Nodup := by
  by_cases hm : lab ∈ gs.map Prod.fst
  · rw [keys_addToGroups_mem r hm]; exact h
  · rw [addToGroups_not_mem r hm, List.map_append]
    simp [List.nodup_append, h, hm]

theorem buildGroups_go_keys_nodup (pairs : List (String × Row)) :
    ∀ gs : List (String × List Row), (gs.map Prod.fst).Nodup →
    ((pairs.foldl (fun gs p => addToGroups gs p.1 p.2) gs).map
      Prod.fst).Nodup := by
  induction pairs with
  | nil => intro gs h; simpa using h
  | cons p ps ih =>
    intro gs h
    rw [List.foldl_cons]
    exact ih _ (keys_nodup_addToGroups p.2 h)

theorem buildGroups_keys_nodup (pairs : List (String × Row)) :
    ((buildGroups pairs).map Prod.fst).Nodup :=
  buildGroups_go_keys_nodup pairs [] (by simp)

theorem buildGroups_go_keys_origin (pairs : List (String × Row)) :
    ∀ (gs : List (String × List Row)) (L : String),
    L ∈ ((pairs.foldl (fun gs p => addToGroups gs p.1 p.2) gs)).map Prod.fst →
      L ∈ gs.map Prod.fst ∨ ∃ p ∈ pairs, p.1 = L := by
  induction pairs with
  | nil => intro gs L h; exact Or.inl (by simpa using h)
  | cons p ps ih =>
    intro gs L h
    rw [List.foldl_cons] at h
    rcases ih _ L h with hin | ⟨q, hq, hql⟩
    · rcases keys_addToGroups_sub hin with hl | rfl
      · exact Or.inl hl
      · exact Or.inr ⟨p, List.mem_cons_self p ps, rfl⟩
    · exact Or.inr ⟨q, List.mem_cons_of_mem p hq, hql⟩

theorem find_self_of_nodup {gs : List (String × List Row)}
    (h : (gs.map Prod.fst).Nodup) {g : String × List Row} (hg : g ∈ gs) :
    gs.find? (fun x => x.1 = g.1) = some g := by
  induction gs with
  | nil => cases hg
  | cons a rest ih =>
    rw [List.map_cons] at h
    have hn := List.nodup_cons.mp h
    rcases List.mem_cons.mp hg with rfl | hmem
    · exact List.find?_cons_of_pos _ (by simp)
    · have hne : ¬ a.1 = g.1 := by
        intro he
        apply hn.1
        rw [he]
        exact List.mem_map_of_mem Prod.fst hmem
      rw [List.find?_cons_of_neg _ (by simp [hne])]
      exact ih hn.2 hmem

theorem buildGroups_mem_eq {pairs : List (String × Row)}
    {g : String × List Row} (hg : g ∈ buildGroups pairs) :
    g.2 = (pairs.filter (fun p => p.1 = g.1)).map Prod.snd := by
  have hm := buildGroups_members pairs g.1
  rw [groupMembers, find_self_of_nodup (buildGroups_keys_nodup pairs) hg]
    at hm
  simpa using hm

theorem buildGroups_mem_key {pairs : List (String × Row)}
    {g : String × List Row} (hg : g ∈ buildGroups pairs) :
    ∃ p ∈ pairs, p.1 = g.1 := by
  have : g.1 ∈ (buildGroups pairs).map Prod.fst :=
    List.mem_map_of_mem Prod.fst hg
  rcases buildGroups_go_keys_origin pairs [] g.1 this with hnil | hp
  · simp at hnil
  · exact hp

theorem buildGroups_mem_ne_nil {pairs : List (String × Row)}
    {g : String × List Row} (hg : g ∈ buildGroups pairs) : g.2 ≠ [] := by
  obtain ⟨p, hp, hpl⟩ := buildGroups_mem_key hg
  rw [buildGroups_mem_eq hg]
  have hmem : p ∈ pairs.filter (fun p => p.1 = g.1) :=
    List.mem_filter.mpr ⟨hp, by simp [hpl]⟩
  intro hnil
  rw [List.map_eq_nil_iff] at hnil
  rw [hnil] at hmem
  cases hmem

/-! ## `max` / `min` folds over a bucket -/

theorem le_listMax_self : ∀ (l : List ℚ) (a : ℚ), a ≤ listMax a l
  | [], a => le_refl a
  | x :: xs, a => by
    rw [listMax, List.foldl_cons]
    exact le_trans (le_max_left a x) (le_listMax_self xs (max a x))

theorem listMax_mem_le : ∀ (l : List ℚ) (a x : ℚ), x ∈ l → x ≤ listMax a l
  | x' :: xs, a, x, hx => by
    rw [listMax, List.foldl_cons]
    rcases List.mem_cons.mp hx with rfl | hmem
    · exact le_trans (le_max_right a x) (le_listMax_self xs _)
    · exact listMax_mem_le xs _ x hmem

theorem listMax_eq_or_mem : ∀ (l : List ℚ) (a : ℚ),
    listMax a l = a ∨ listMax a l ∈ l
  | [], _ => Or.inl rfl
  | x :: xs, a => by
    rw [listMax, List.foldl_cons]
    rcases listMax_eq_or_mem xs (max a x) with h | h
    · rcases le_total a x with hax | hxa
      · right
        rw [show xs.foldl max (max a x) = max a x from h, max_eq_right hax]
        exact List.mem_cons_self x xs
      · left
        rw [show xs.foldl max (max a x) = max a x from h, max_eq_left hxa]
    · right; exact List.mem_cons_of_mem _ h

theorem listMin_le_self : ∀ (l : List ℚ) (a : ℚ), listMin a l ≤ a
  | [], a => le_refl a
  | x :: xs, a => by
    rw [listMin, List.foldl_cons]
    exact le_trans (listMin_le_self xs (min a x)) (min_le_left a x)

theorem listMin_le_mem : ∀ (l : List ℚ) (a x : ℚ), x ∈ l → listMin a l ≤ x
  | x' :: xs, a, x, hx => by
    rw [listMin, List.foldl_cons]
    rcases List.mem_cons.mp hx with rfl | hmem
    · exact le_trans (listMin_le_self xs _) (min_le_right a x)
    · exact listMin_le_mem xs _ x hmem

theorem listMin_eq_or_mem : ∀ (l : List ℚ) (a : ℚ),
    listMin a l = a ∨ listMin a l ∈ l
  | [], _ => Or.inl rfl
  | x :: xs, a => by
    rw [listMin, List.foldl_cons]
    rcases listMin_eq_or_mem xs (min a x) with h | h
    · rcases le_total a x with hax | hxa
      · left
        rw [show xs.foldl min (min a x) = min a x from h, min_eq_left hax]
      · right
        rw [show xs.foldl min (min a x) = min a x from h, min_eq_right hxa]
        exact List.mem_cons_self x xs
    · right; exact List.mem_cons_of_mem _ h

/-! ## The per-bucket combination rule -/

theorem combineGroup_spec {g : String × List Row} (hne : g.2 ≠ []) :
    (combineGroup g).date = g.1 ∧
    (∃ m ∈ g.2, (combineGroup g).«open» = m.«open» ∧
      ∀ x ∈ g.2, strLe m.date x.date = true) ∧
    (∃ m ∈ g.2, (combineGroup g).close = m.close ∧
      ∀ x ∈ g.2, strLe x.date m.date = true) ∧
    (∀ x ∈ g.2, x.high ≤ (combineGroup g).high) ∧
    (∃ m ∈ g.2, (combineGroup g).high = m.high) ∧
    (∀ x ∈ g.2, (combineGroup g).low ≤ x.low) ∧
    (∃ m ∈ g.2, (combineGroup g).low = m.low) := by
  have hperm := List.perm_insertionSort rowLe g.2
  cases hs : List.insertionSort rowLe g.2 with
  | nil =>
    rw [hs] at hperm
    exact absurd hperm.symm.eq_nil hne
  | cons h0 t =>
    have hsorted := List.sorted_insertionSort rowLe g.2
    rw [hs] at hsorted
    have hmem₀ : ∀ x : Row, x ∈ h0 :: t ↔ x ∈ g.2 := by
      intro x
      rw [← hs]
      exact List.mem_insertionSort rowLe
    have hcomb : combineGroup g =
        ⟨g.1, h0.«open», listMax h0.high (t.map (·.high)),
          listMin h0.low (t.map (·.low)), (t.getLastD h0).close⟩ := by
      rw [combineGroup, hs]
    refine ⟨by rw [hcomb], ?_, ?_, ?_, ?_, ?_, ?_⟩
    · refine ⟨h0, (hmem₀ h0).mp (List.mem_cons_self h0 t), by rw [hcomb], ?_⟩
      intro x hx
      exact sorted_head_le hsorted x ((hmem₀ x).mpr hx)
    · refine ⟨t.getLastD h0, (hmem₀ _).mp (getLastD_mem t h0),
        by rw [hcomb], ?_⟩
      intro x hx
      exact sorted_le_getLastD hsorted x ((hmem₀ x).mpr hx)
    · intro x hx
      rw [hcomb]
      rcases List.mem_cons.mp ((hmem₀ x).mpr hx) with rfl | hmem
      · exact le_listMax_self _ _
      · exact listMax_mem_le _ _ _ (List.mem_map_of_mem (·.high) hmem)
    · rcases listMax_eq_or_mem (t.map (·.high)) h0.high with h | h
      · exact ⟨h0, (hmem₀ h0).mp (List.mem_cons_self h0 t), by rw [hcomb]; exact h⟩
      · obtain ⟨m, hm, hmh⟩ := List.mem_map.mp h
        exact ⟨m, (hmem₀ m).mp (List.mem_cons_of_mem h0 hm),
          by rw [hcomb]; exact hmh.symm⟩
    · intro x hx
      rw [hcomb]
      rcases List.mem_cons.mp ((hmem₀ x).mpr hx) with rfl | hmem
      · exact listMin_le_self _ _
      · exact listMin_le_mem _ _ _ (List.mem_map_of_mem (·.low) hmem)
    · rcases listMin_eq_or_mem (t.map (·.low)) h0.low with h | h
      · exact ⟨h0, (hmem₀ h0).mp (List.mem_cons_self h0 t), by rw [hcomb]; exact h⟩
      · obtain ⟨m, hm, hml⟩ := List.mem_map.mp h
        exact ⟨m, (hmem₀ m).mp (List.mem_cons_of_mem h0 hm),
          by rw [hcomb]; exact hml.symm⟩

theorem combineGroup_date (g : String × List Row) :
    (combineGroup g).date = g.1 := by
  cases hs : List.insertionSort rowLe g.2 with
  | nil => rw [combineGroup, hs]
  | cons h0 t => rw [combineGroup, hs]

/-! ## The labelling loop -/

theorem labelRows_ok_inv {period : String} : ∀ {rows : List Row}
    {pairs : List (String × Row)}, labelRows period rows = .ok pairs →
    pairs.map Prod.snd = rows ∧
      ∀ p ∈ pairs, labelOfRow period p.2 = some p.1 := by
  intro rows
  induction rows with
  | nil =>
    intro pairs h
    injection h with h'
    subst h'
    exact ⟨rfl, by intro p hp; cases hp⟩
  | cons r rs ih =>
    intro pairs h
    rw [labelRows] at h
    cases hp : parse_date r.date with
    | none => rw [hp] at h; cases h
    | some t =>
      rw [hp] at h
      cases hrest : labelRows period rs with
      | error e =>
        rw [hrest] at h
        simp only [Bind.bind, Except.bind] at h
        exact Except.noConfusion h
      | ok rest =>
        rw [hrest] at h
        simp only [Bind.bind, Except.bind] at h
        injection h with h'
        subst h'
        obtain ⟨hmap, hlab⟩ := ih hrest
        refine ⟨by simp [hmap], ?_⟩
        intro p hp'
        rcases List.mem_cons.mp hp' with rfl | hm
        · simp [labelOfRow, hp]
        · exact hlab p hm

theorem labelRows_raw {period : String} (hw : period ≠ "weekly")
    (hm : period ≠ "monthly") : ∀ {rows : List Row},
    (∀ r ∈ rows, (parse_date r.date).isSome) →
    labelRows period rows = .ok (rows.map fun r => (r.date, r)) := by
  intro rows
  induction rows with
  | nil => intro _; rfl
  | cons r rs ih =>
    intro h
    obtain ⟨t, ht⟩ :=
      Option.isSome_iff_exists.mp (h r (List.mem_cons_self r rs))
    rw [labelRows, ht, ih fun x hx => h x (List.mem_cons_of_mem r hx)]
    simp only [Bind.bind, Except.bind, rowLabel, if_neg hw, if_neg hm,
      List.map_cons]

/-! ## Shape of the non-pass-through aggregation -/

theorem group_by_period_grouped {rows : List Row} {period : String}
    {out : List Row} (hp : ¬(period = "intraday" ∨ period = "daily"))
    (h : group_by_period rows period = .ok out) :
    ∃ pairs, labelRows period rows = .ok pairs ∧
      out = sortRows ((buildGroups pairs).map combineGroup) := by
  rw [group_by_period, if_neg hp] at h
  cases hl : labelRows period rows with
  | error e =>
    rw [hl] at h
    simp only [Bind.bind, Except.bind] at h
    exact Except.noConfusion h
  | ok pairs =>
    rw [hl] at h
    simp only [Bind.bind, Except.bind] at h
    injection h with h'
    exact ⟨pairs, rfl, h'.symm⟩

theorem pairs_filter_snd {period : String} {pairs : List (String × Row)}
    (hlab : ∀ p ∈ pairs, labelOfRow period p.2 = some p.1) (L : String) :
    (pairs.filter (fun p => p.1 = L)).map Prod.snd =
      (pairs.map Prod.snd).filter (fun r => labelOfRow period r = some L) := by
  induction pairs with
  | nil => rfl
  | cons p ps ih =>
    have hp := hlab p (List.mem_cons_self p ps)
    have ihh := ih fun q hq => hlab q (List.mem_cons_of_mem p hq)
    rw [List.filter_cons, List.map_cons, List.filter_cons]
    by_cases h : p.1 = L
    · have hl : labelOfRow period p.2 = some L := by rw [hp, h]
      simp [h, hl, ihh]
    · have hl : ¬labelOfRow period p.2 = some L := by
        rw [hp]
        intro hc
        exact h (Option.some.inj hc)
      simp [h, hl, ihh]

theorem labelRows_isOk {period : String} : ∀ {rows : List Row},
    (∀ r ∈ rows, (parse_date r.date).isSome) →
    ∃ pairs, labelRows period rows = .ok pairs := by
  intro rows
  induction rows with
  | nil => exact fun _ => ⟨[], rfl⟩
  | cons r rs ih =>
    intro h
    obtain ⟨t, ht⟩ :=
      Option.isSome_iff_exists.mp (h r (List.mem_cons_self r rs))
    obtain ⟨rest, hrest⟩ := ih fun x hx => h x (List.mem_cons_of_mem r hx)
    refine ⟨(rowLabel period t r.date, r) :: rest, ?_⟩
    rw [labelRows, ht, hrest]
    rfl

theorem buildGroups_const_go {L : String} : ∀ (pairs : List (String × Row))
    (acc : List Row), (∀ p ∈ pairs, p.1 = L) →
    pairs.foldl (fun gs p => addToGroups gs p.1 p.2) [(L, acc)] =
      [(L, acc ++ pairs.map Prod.snd)] := by
  intro pairs
  induction pairs with
  | nil => intro acc _; simp
  | cons p ps ih =>
    intro acc h
    have hp : p.1 = L := h p (List.mem_cons_self p ps)
    have hstep : addToGroups [(L, acc)] p.1 p.2 = [(L, acc ++ [p.2])] := by
      simp [addToGroups, hp]
    rw [List.foldl_cons, hstep,
      ih _ fun q hq => h q (List.mem_cons_of_mem p hq)]
    simp

theorem buildGroups_const_key {L : String} {pairs : List (String × Row)}
    (hne : pairs ≠ []) (h : ∀ p ∈ pairs, p.1 = L) :
    buildGroups pairs = [(L, pairs.map Prod.snd)] := by
  cases pairs with
  | nil => exact absurd rfl hne
  | cons p ps =>
    have hp : p.1 = L := h p (List.mem_cons_self p ps)
    have hstep : addToGroups [] p.1 p.2 = [(L, [p.2])] := by
      simp [addToGroups, hp]
    rw [buildGroups, List.foldl_cons, hstep,
      buildGroups_const_go ps [p.2] fun q hq => h q (List.mem_cons_of_mem p hq)]
    simp

theorem sortRows_singleton (x : Row) : sortRows [x] = [x] := rfl

/-! ## C3: the per-bucket OHLC combination rule -/

/-- C3: (i) every record emitted by a grouping aggregation (`weekly`,
`monthly`, or any other non-pass-through resolution) is the fold of its
(non-empty) bucket — the records carrying its label: its open is the open
of an earliest bucket member and its close the close of a latest member
(earliest/latest in the date-string order the source sorts buckets by,
which is date order for the provider's fixed-width date strings), its high
is the maximum high and its low the minimum low over the bucket; and
(ii) monthly aggregation of a non-empty record list lying in one single
month returns exactly one record whose open/close are the open of the
chronologically first and the close of the chronologically last record. -/
theorem aggregate_bucket_rule :
    (∀ (rows : List Row) (period : String) (out : List Row) (r : Row),
      ¬(period = "intraday" ∨ period = "daily") →
      group_by_period rows period = .ok out → r ∈ out →
      bucketOf rows period r.date ≠ [] ∧
      (∃ m ∈ bucketOf rows period r.date, r.«open» = m.«open» ∧
        ∀ x ∈ bucketOf rows period r.date, strLe m.date x.date = true) ∧
      (∃ m ∈ bucketOf rows period r.date, r.close = m.close ∧
        ∀ x ∈ bucketOf rows period r.date, strLe x.date m.date = true) ∧
      (∀ x ∈ bucketOf rows period r.date, x.high ≤ r.high) ∧
      (∃ m ∈ bucketOf rows period r.date, r.high = m.high) ∧
      (∀ x ∈ bucketOf rows period r.date, r.low ≤ x.low) ∧
      (∃ m ∈ bucketOf rows period r.date, r.low = m.low)) ∧
    (∀ (rows : List Row) (y mo : ℕ), rows ≠ [] →
      (∀ r ∈ rows, ∃ t, parse_date r.date = some t ∧
        t.year = y ∧ t.month = mo) →
      ∃ u, group_by_period rows "monthly" = .ok [u] ∧
        (∃ m ∈ rows, u.«open» = m.«open» ∧
          ∀ x ∈ rows, strLe m.date x.date = true) ∧
        (∃ m ∈ rows, u.close = m.close ∧
          ∀ x ∈ rows, strLe x.date m.date = true)) := by
  constructor
  · intro rows period out r hp hok hr
    obtain ⟨pairs, hl, hout⟩ := group_by_period_grouped hp hok
    obtain ⟨hmap, hlab⟩ := labelRows_ok_inv hl
    rw [hout] at hr
    obtain ⟨g, hg, hgr⟩ := List.mem_map.mp (sortRows_mem.mp hr)
    have hdate : r.date = g.1 := by rw [← hgr]; exact combineGroup_date g
    have hbucket : bucketOf rows period r.date = g.2 := by
      rw [bucketOf, hdate, ← hmap, ← pairs_filter_snd hlab,
        ← buildGroups_mem_eq hg]
    have hne := buildGroups_mem_ne_nil hg
    have spec := combineGroup_spec hne
    rw [hgr] at spec
    rw [hbucket]
    exact ⟨hne, spec.2.1, spec.2.2.1, spec.2.2.2.1, spec.2.2.2.2.1,
      spec.2.2.2.2.2.1, spec.2.2.2.2.2.2⟩
  · intro rows y mo hne h
    have hsome : ∀ r ∈ rows, (parse_date r.date).isSome := by
      intro r hr
      obtain ⟨t, ht, _, _⟩ := h r hr
      rw [ht]; rfl
    obtain ⟨pairs, hl⟩ := @labelRows_isOk "monthly" rows hsome
    obtain ⟨hmap, hlab⟩ := labelRows_ok_inv hl
    have hkeys : ∀ p ∈ pairs, p.1 = decStr y ++ "-" ++ pad2 mo := by
      intro p hp'
      have hpr : p.2 ∈ rows := by
        rw [← hmap]; exact List.mem_map_of_mem Prod.snd hp'
      obtain ⟨t, ht, hty, htm⟩ := h p.2 hpr
      have := hlab p hp'
      rw [labelOfRow, ht] at this
      simp only [Option.map_some'] at this
      have hlabel : rowLabel "monthly" t p.2.date =
          decStr y ++ "-" ++ pad2 mo := by
        rw [rowLabel, if_neg (by decide), if_pos rfl, monthLabel, hty, htm]
      rw [hlabel] at this
      exact (Option.some.inj this).symm
    have hpne : pairs ≠ [] := by
      intro hnil
      rw [hnil] at hmap
      exact hne hmap.symm
    have hbg := buildGroups_const_key hpne hkeys
    have hgout : group_by_period rows "monthly" =
        .ok [combineGroup (decStr y ++ "-" ++ pad2 mo, rows)] := by
      rw [group_by_period, if_neg (by decide), hl]
      simp only [Bind.bind, Except.bind, hbg, List.map_cons, List.map_nil,
        hmap, sortRows_singleton]
    refine ⟨combineGroup (decStr y ++ "-" ++ pad2 mo, rows), hgout, ?_, ?_⟩
    · have spec := combineGroup_spec
        (show ((decStr y ++ "-" ++ pad2 mo, rows) :
          String × List Row).2 ≠ [] from hne)
      exact spec.2.1
    · have spec := combineGroup_spec
        (show ((decStr y ++ "-" ++ pad2 mo, rows) :
          String × List Row).2 ≠ [] from hne)
      exact spec.2.2.1

/-- Witness for C3 at a concrete two-record January 2024 list. -/
theorem aggregate_bucket_rule_witness :
    ∃ u, group_by_period [⟨"2024-01-20", 7, 9, 3, 8⟩,
        ⟨"2024-01-10", 5, 6, 4, 5⟩] "monthly" = .ok [u] ∧
      (∃ m ∈ ([⟨"2024-01-20", 7, 9, 3, 8⟩,
          ⟨"2024-01-10", 5, 6, 4, 5⟩] : List Row),
        u.«open» = m.«open» ∧
        ∀ x ∈ ([⟨"2024-01-20", 7, 9, 3, 8⟩,
          ⟨"2024-01-10", 5, 6, 4, 5⟩] : List Row),
          strLe m.date x.date = true) ∧
      (∃ m ∈ ([⟨"2024-01-20", 7, 9, 3, 8⟩,
          ⟨"2024-01-10", 5, 6, 4, 5⟩] : List Row),
        u.close = m.close ∧
        ∀ x ∈ ([⟨"2024-01-20", 7, 9, 3, 8⟩,
          ⟨"2024-01-10", 5, 6, 4, 5⟩] : List Row),
          strLe x.date m.date = true) :=
  aggregate_bucket_rule.2 [⟨"2024-01-20", 7, 9, 3, 8⟩,
      ⟨"2024-01-10", 5, 6, 4, 5⟩] 2024 1 (by decide)
    (by
      intro r hr
      rcases List.mem_cons.mp hr with rfl | hr2
      · exact ⟨⟨2024, 1, 20, 0, 0, 0⟩, rfl, rfl, rfl⟩
      · rcases List.mem_singleton.mp hr2 with rfl
        exact ⟨⟨2024, 1, 10, 0, 0, 0⟩, rfl, rfl, rfl⟩)

/-! ## C9: aggregation preserves the OHLC record invariant -/

theorem ohlcInv_iff (r : Row) : ohlcInv r ↔
    (r.«open» ≤ r.high ∧ r.close ≤ r.high ∧ r.low ≤ r.high ∧
      r.low ≤ r.«open» ∧ r.low ≤ r.close) := by
  rw [ohlcInv, max_le_iff, max_le_iff, le_min_iff, le_min_iff]
  tauto

/-- C9: if every input record satisfies `high >= max(open, close, low)` and
`low <= min(open, close, high)`, then so does every record produced by
`group_by_period`, for any resolution. -/
theorem aggregate_preserves_ohlcInv (rows : List Row) (period : String)
    (out : List Row) (hok : group_by_period rows period = .ok out)
    (hinv : ∀ r ∈ rows, ohlcInv r) : ∀ r ∈ out, ohlcInv r := by
  intro r hr
  by_cases hp : period = "intraday" ∨ period = "daily"
  · rw [group_by_period, if_pos hp] at hok
    injection hok with h'
    subst h'
    exact hinv r (sortRows_mem.mp hr)
  · obtain ⟨pairs, hl, hout⟩ := group_by_period_grouped hp hok
    obtain ⟨hmap, hlab⟩ := labelRows_ok_inv hl
    rw [hout] at hr
    obtain ⟨g, hg, hgr⟩ := List.mem_map.mp (sortRows_mem.mp hr)
    have hne := buildGroups_mem_ne_nil hg
    have spec := combineGroup_spec hne
    rw [hgr] at spec
    have hsub : ∀ x ∈ g.2, x ∈ rows := by
      intro x hx
      rw [buildGroups_mem_eq hg] at hx
      obtain ⟨p, hp', hpx⟩ := List.mem_map.mp hx
      rw [← hmap]
      exact hpx ▸ List.mem_map_of_mem Prod.snd (List.mem_filter.mp hp').1
    obtain ⟨-, ⟨mo, hmo, hoeq, -⟩, ⟨mc, hmc, hceq, -⟩, hhigh, ⟨mh, hmh, hheq⟩,
      hlow, ⟨ml, hml, hleq⟩⟩ := spec
    have io := (ohlcInv_iff mo).mp (hinv mo (hsub mo hmo))
    have ic := (ohlcInv_iff mc).mp (hinv mc (hsub mc hmc))
    have ihh := (ohlcInv_iff mh).mp (hinv mh (hsub mh hmh))
    rw [ohlcInv_iff]
    refine ⟨?_, ?_, ?_, ?_, ?_⟩
    · rw [hoeq]
      exact le_trans io.1 (hhigh mo hmo)
    · rw [hceq]
      exact le_trans ic.2.1 (hhigh mc hmc)
    · calc r.low ≤ mh.low := hlow mh hmh
        _ ≤ mh.high := ihh.2.2.1
        _ = r.high := hheq.symm
    · rw [hoeq]
      exact le_trans (hlow mo hmo) io.2.2.2.1
    · rw [hceq]
      exact le_trans (hlow mc hmc) ic.2.2.2.2

/-- Witness for C9: the weekly fold of two invariant-satisfying records
satisfies the invariant. -/
theorem aggregate_preserves_ohlcInv_witness :
    ohlcInv (⟨"2025-W01", 10, 13, 8, 12⟩ : Row) :=
  aggregate_preserves_ohlcInv
    [⟨"2024-12-30", 10, 12, 9, 11⟩, ⟨"2025-01-02", 11, 13, 8, 12⟩] "weekly"
    [⟨"2025-W01", 10, 13, 8, 12⟩] (by decide) (by decide)
    ⟨"2025-W01", 10, 13, 8, 12⟩ (List.mem_singleton.mpr rfl)

/-! ## C5: unrecognized resolutions fall back to daily -/

theorem buildGroups_go_singleton : ∀ (pairs : List (String × Row))
    (gs : List (String × List Row)),
    (∀ p ∈ pairs, p.1 ∉ gs.map Prod.fst) → (pairs.map Prod.fst).Nodup →
    pairs.foldl (fun gs p => addToGroups gs p.1 p.2) gs =
      gs ++ pairs.map (fun p => (p.1, [p.2])) := by
  intro pairs
  induction pairs with
  | nil => intro gs _ _; simp
  | cons p ps ih =>
    intro gs hdisj hnd
    rw [List.map_cons] at hnd
    have hnd' := List.nodup_cons.mp hnd
    rw [List.foldl_cons,
      addToGroups_not_mem p.2 (hdisj p (List.mem_cons_self p ps))]
    rw [ih (gs ++ [(p.1, [p.2])]) ?_ hnd'.2]
    · simp
    · intro q hq
      rw [List.map_append]
      intro hmem
      rcases List.mem_append.mp hmem with hl | hr
      · exact hdisj q (List.mem_cons_of_mem p hq) hl
      · have : q.1 = p.1 := by simpa using hr
        exact hnd'.1 (this ▸ List.mem_map_of_mem Prod.fst hq)

theorem buildGroups_singleton {pairs : List (String × Row)}
    (hnd : (pairs.map Prod.fst).Nodup) :
    buildGroups pairs = pairs.map (fun p => (p.1, [p.2])) := by
  have := buildGroups_go_singleton pairs [] (by simp) hnd
  simpa [buildGroups] using this

theorem combineGroup_self (r : Row) : combineGroup (r.date, [r]) = r := rfl

/-- C5 counterexample: with two records sharing one date string, the
unrecognized resolution `"hourly"` buckets them by raw date and merges them
into a single folded record, while `"daily"` passes both through — the two
aggregations differ, refuting "behaves exactly as daily" as stated for
every record list. -/
theorem unrecognized_resolution_counterexample :
    group_by_period [⟨"2024-01-02", 1, 2, 0, 1⟩, ⟨"2024-01-02", 5, 9, 4, 6⟩]
        "hourly" ≠
      group_by_period [⟨"2024-01-02", 1, 2, 0, 1⟩, ⟨"2024-01-02", 5, 9, 4, 6⟩]
        "daily" := by decide

/-- C5 amended: for every resolution string whose lower-casing is not one
of `intraday`/`daily`/`weekly`/`monthly`, the fetch stage issues the same
provider function and parameters as `daily`; and aggregation agrees with
`daily` aggregation on every record list whose dates parse and are pairwise
distinct (records sharing a date string are instead merged into one bucket,
as the counterexample shows). -/
theorem unrecognized_resolution_defaults_to_daily (period iv : String)
    (hin : pyLower period ≠ "intraday") (hd : pyLower period ≠ "daily")
    (hw : pyLower period ≠ "weekly") (hm : pyLower period ≠ "monthly") :
    alpha_function_for_period period iv =
      alpha_function_for_period "daily" iv ∧
    ∀ rows : List Row, (∀ r ∈ rows, (parse_date r.date).isSome) →
      (rows.map Row.date).Nodup →
      group_by_period rows period = group_by_period rows "daily" := by
  constructor
  · simp only [alpha_function_for_period, if_neg hin, if_neg hd, if_neg hw,
      if_neg hm]
    rfl
  · intro rows hparse hnodup
    have hni : period ≠ "intraday" := fun he => hin (by rw [he]; rfl)
    have hnd : period ≠ "daily" := fun he => hd (by rw [he]; rfl)
    have hnw : period ≠ "weekly" := fun he => hw (by rw [he]; rfl)
    have hnm : period ≠ "monthly" := fun he => hm (by rw [he]; rfl)
    rw [group_by_period, group_by_period,
      if_neg (by rintro (h | h); exact hni h; exact hnd h),
      if_pos (Or.inr rfl), labelRows_raw hnw hnm hparse]
    have hkeys : ((rows.map fun r => (r.date, r)).map Prod.fst).Nodup := by
      rw [List.map_map]
      exact hnodup
    simp only [Bind.bind, Except.bind, buildGroups_singleton hkeys,
      List.map_map]
    have : (rows.map (combineGroup ∘ (fun p => (p.1, [p.2])) ∘
        fun r => (r.date, r))) = rows := by
      have he : (combineGroup ∘ (fun p : String × Row => (p.1, [p.2])) ∘
          fun r : Row => (r.date, r)) = id := by
        funext r
        exact combineGroup_self r
      rw [he, List.map_id]
    rw [this]

/-- Witness for the amended C5 theorem at the resolution `"hourly"`. -/
theorem unrecognized_resolution_defaults_to_daily_witness :
    alpha_function_for_period "hourly" "60min" =
        alpha_function_for_period "daily" "60min" ∧
      group_by_period [⟨"2024-01-05", 3, 4, 2, 3⟩, ⟨"2024-01-02", 1, 2, 0, 1⟩]
          "hourly" =
        group_by_period [⟨"2024-01-05", 3, 4, 2, 3⟩, ⟨"2024-01-02", 1, 2, 0, 1⟩]
          "daily" :=
  ⟨(unrecognized_resolution_defaults_to_daily "hourly" "60min" (by decide)
      (by decide) (by decide) (by decide)).1,
    (unrecognized_resolution_defaults_to_daily "hourly" "60min" (by decide)
      (by decide) (by decide) (by decide)).2
      [⟨"2024-01-05", 3, 4, 2, 3⟩, ⟨"2024-01-02", 1, 2, 0, 1⟩]
      (by decide) (by decide)⟩

/-! ## Calendar arithmetic for the ISO week computation -/

theorem isLeap_iff (y : ℕ) :
    isLeap y = true ↔ (y % 4 = 0 ∧ (y % 100 ≠ 0 ∨ y % 400 = 0)) := by
  simp [isLeap]

theorem yearStartDays_step (ys : ℕ) :
    yearStartDays (ys + 1) = yearStartDays ys + 365 +
      (if isLeap (ys + 1) = true then 1 else 0) := by
  by_cases h : isLeap (ys + 1) = true
  · rw [if_pos h]
    rw [isLeap_iff] at h
    unfold yearStartDays
    omega
  · rw [if_neg h]
    have h' : ¬((ys + 1) % 4 = 0 ∧ ((ys + 1) % 100 ≠ 0 ∨ (ys + 1) % 400 = 0)) :=
      fun hc => h ((isLeap_iff _).mpr hc)
    unfold yearStartDays
    omega

theorem yearStartDays_mono {a b : ℕ} (h : a ≤ b) :
    yearStartDays a ≤ yearStartDays b := by
  induction b with
  | zero => simpa [Nat.le_zero.mp h]
  | succ b ih =>
    rcases Nat.lt_or_ge a (b + 1) with hl | hg
    · have := ih (by omega)
      rw [yearStartDays_step]
      split_ifs <;> omega
    · have : a = b + 1 := by omega
      rw [this]

theorem daysInYear_eq (y : ℕ) :
    daysInYear y = 365 + (if isLeap y = true then 1 else 0) := by
  unfold daysInYear
  split_ifs <;> rfl

theorem daysInYear_bounds (y : ℕ) :
    365 ≤ daysInYear y ∧ daysInYear y ≤ 366 := by
  unfold daysInYear
  split_ifs <;> omega

theorem rataDie_jan1 (y : ℕ) : rataDie y 1 1 = yearStartDays (y - 1) + 306 := by
  simp [rataDie, yearStartDays]

theorem rataDie_jan1_succ (y : ℕ) (hy : 1 ≤ y) :
    rataDie (y + 1) 1 1 = rataDie y 1 1 + daysInYear y := by
  rw [rataDie_jan1, rataDie_jan1, daysInYear_eq,
    show y + 1 - 1 = (y - 1) + 1 from by omega, yearStartDays_step,
    show y - 1 + 1 = y from by omega]
  split_ifs <;> omega

theorem rataDie_jan1_mono {y1 y2 : ℕ} (h : y1 ≤ y2) :
    rataDie y1 1 1 ≤ rataDie y2 1 1 := by
  rw [rataDie_jan1, rataDie_jan1]
  have := yearStartDays_mono (show y1 - 1 ≤ y2 - 1 from by omega)
  omega

theorem rataDie_jan1_lt {y1 y2 : ℕ} (h1 : 1 ≤ y1) (h : y1 < y2) :
    rataDie y1 1 1 + daysInYear y1 ≤ rataDie y2 1 1 := by
  rw [← rataDie_jan1_succ y1 h1]
  exact rataDie_jan1_mono (by omega)

theorem dayOfYear_bounds {y m d : ℕ} (hm1 : 1 ≤ m) (hm2 : m ≤ 12)
    (hd1 : 1 ≤ d) (hd2 : d ≤ daysInMonth y m) :
    1 ≤ dayOfYear y m d ∧ dayOfYear y m d ≤ daysInYear y := by
  unfold daysInMonth at hd2
  unfold dayOfYear monthPrefix daysInYear
  interval_cases m <;> simp_all <;> split_ifs at * <;> omega

theorem monthPrefix_succ (y : ℕ) {m : ℕ} (h1 : 1 ≤ m) (h2 : m ≤ 11) :
    monthPrefix y (m + 1) = monthPrefix y m + daysInMonth y m := by
  unfold monthPrefix daysInMonth
  interval_cases m <;> simp_all <;> split_ifs at * <;> omega

theorem monthPrefix_mono (y : ℕ) {m1 m2 : ℕ} (h1 : 1 ≤ m1) (hm : m1 ≤ m2)
    (h2 : m2 ≤ 12) : monthPrefix y m1 ≤ monthPrefix y m2 := by
  induction m2 with
  | zero => omega
  | succ b ih =>
    rcases Nat.lt_or_ge m1 (b + 1) with hl | hg
    · have hb1 : 1 ≤ b := by omega
      have := ih (by omega) (by omega)
      rw [monthPrefix_succ y hb1 (by omega)]
      omega
    · have : m1 = b + 1 := by omega
      rw [this]

theorem rataDie_doy {y m d : ℕ} (hy : 1 ≤ y) (hm1 : 1 ≤ m) (hm2 : m ≤ 12)
    (hd : 1 ≤ d) :
    rataDie y m d = rataDie y 1 1 + dayOfYear y m d - 1 := by
  rw [rataDie_jan1]
  have hstep := yearStartDays_step (y - 1)
  rw [show y - 1 + 1 = y from by omega] at hstep
  have hy1 : ((y - 1) / 400) * 146097 + ((y - 1) % 400) * 365 +
      ((y - 1) % 400) / 4 - ((y - 1) % 400) / 100 = yearStartDays (y - 1) := rfl
  have hy2 : (y / 400) * 146097 + (y % 400) * 365 + (y % 400) / 4 -
      (y % 400) / 100 = yearStartDays y := rfl
  by_cases hl : isLeap y = true
  · rw [if_pos hl] at hstep
    interval_cases m <;>
      · simp only [rataDie, dayOfYear, monthPrefix, hl]
        norm_num
        omega
  · rw [if_neg hl] at hstep
    have hl' : isLeap y = false := by
      revert hl
      cases isLeap y <;> simp
    interval_cases m <;>
      · simp only [rataDie, dayOfYear, monthPrefix, hl']
        norm_num
        omega

theorem thursdayRd_mono {r1 r2 : ℕ} (h : r1 ≤ r2) :
    thursdayRd r1 ≤ thursdayRd r2 := by
  unfold thursdayRd
  omega

theorem rataDie_ge {y m d : ℕ} (hy : 1 ≤ y) (hm1 : 1 ≤ m) (hm2 : m ≤ 12)
    (hd : 1 ≤ d) : 306 ≤ rataDie y m d := by
  rw [rataDie_doy hy hm1 hm2 hd, rataDie_jan1]
  have h1 : 1 ≤ dayOfYear y m d := by
    unfold dayOfYear
    omega
  omega

theorem dtKey_le_lex {t1 t2 : DateTime} (hv1 : t1.Valid) (hv2 : t2.Valid)
    (h : dtKey t1 ≤ dtKey t2) :
    t1.year < t2.year ∨ (t1.year = t2.year ∧ (t1.month < t2.month ∨
      (t1.month = t2.month ∧ t1.day ≤ t2.day))) := by
  obtain ⟨a1, a2, a3, a4, a5, a6, a7, a8, a9⟩ := hv1
  obtain ⟨b1, b2, b3, b4, b5, b6, b7, b8, b9⟩ := hv2
  have hm1 : daysInMonth t1.year t1.month ≤ 31 := by
    unfold daysInMonth
    split_ifs <;> omega
  have hm2 : daysInMonth t2.year t2.month ≤ 31 := by
    unfold daysInMonth
    split_ifs <;> omega
  unfold dtKey at h
  omega

theorem dayOfYear_le_of_lex {y m1 d1 m2 d2 : ℕ} (hm1 : 1 ≤ m1)
    (hd1 : 1 ≤ d1) (hd1b : d1 ≤ daysInMonth y m1) (hm2 : m2 ≤ 12)
    (h : m1 < m2 ∨ (m1 = m2 ∧ d1 ≤ d2)) :
    dayOfYear y m1 d1 ≤ dayOfYear y m2 d2 := by
  rcases h with hm | ⟨hm, hd⟩
  · have hs := monthPrefix_succ y hm1 (by omega)
    have hmono := monthPrefix_mono y (show 1 ≤ m1 + 1 from by omega)
      (show m1 + 1 ≤ m2 from by omega) hm2
    unfold dayOfYear
    omega
  · subst hm
    unfold dayOfYear
    omega

theorem rataDie_le_of_lex {t1 t2 : DateTime} (hv1 : t1.Valid) (hv2 : t2.Valid)
    (h : t1.year < t2.year ∨ (t1.year = t2.year ∧ (t1.month < t2.month ∨
      (t1.month = t2.month ∧ t1.day ≤ t2.day)))) :
    rataDie t1.year t1.month t1.day ≤ rataDie t2.year t2.month t2.day := by
  obtain ⟨a1, a2, a3, a4, a5, a6, a7, a8, a9⟩ := hv1
  obtain ⟨b1, b2, b3, b4, b5, b6, b7, b8, b9⟩ := hv2
  rw [rataDie_doy a1 a3 a4 a5, rataDie_doy b1 b3 b4 b5]
  have hb1 := dayOfYear_bounds a3 a4 a5 a6
  have hb2 := dayOfYear_bounds b3 b4 b5 b6
  rcases h with hy | ⟨hy, hmd⟩
  · have hj := rataDie_jan1_lt a1 hy
    omega
  · have hdoy : dayOfYear t1.year t1.month t1.day ≤
        dayOfYear t1.year t2.month t2.day :=
      dayOfYear_le_of_lex a3 a5 a6 b4 hmd
    rw [← hy]
    omega

theorem isoPair_bracket {y m d : ℕ} (hy : 2 ≤ y) (hm1 : 1 ≤ m) (hm2 : m ≤ 12)
    (hd1 : 1 ≤ d) (hd2 : d ≤ daysInMonth y m) :
    rataDie (isoPair y m d).1 1 1 ≤ thursdayRd (rataDie y m d) ∧
    thursdayRd (rataDie y m d) <
      rataDie (isoPair y m d).1 1 1 + daysInYear (isoPair y m d).1 ∧
    (isoPair y m d).2 =
      (thursdayRd (rataDie y m d) - rataDie (isoPair y m d).1 1 1) / 7 + 1 ∧
    y - 1 ≤ (isoPair y m d).1 ∧ (isoPair y m d).1 ≤ y + 1 := by
  have hy1 : 1 ≤ y := by omega
  have hrd : rataDie y m d = rataDie y 1 1 + dayOfYear y m d - 1 :=
    rataDie_doy hy1 hm1 hm2 hd1
  have hdoy := dayOfYear_bounds hm1 hm2 hd1 hd2
  have hjan : 306 ≤ rataDie y 1 1 := by
    rw [rataDie_jan1]
    omega
  have hsucc : rataDie (y + 1) 1 1 = rataDie y 1 1 + daysInYear y :=
    rataDie_jan1_succ y hy1
  have hprev : rataDie y 1 1 = rataDie (y - 1) 1 1 + daysInYear (y - 1) := by
    have := rataDie_jan1_succ (y - 1) (by omega)
    rw [show y - 1 + 1 = y from by omega] at this
    exact this
  have hdy := daysInYear_bounds y
  have hdyp := daysInYear_bounds (y - 1)
  have hdyn := daysInYear_bounds (y + 1)
  have hwd : isoWeekday y m d = (rataDie y m d + 2) % 7 + 1 := rfl
  have hth : thursdayRd (rataDie y m d) =
      rataDie y m d + 3 - (rataDie y m d + 2) % 7 := rfl
  unfold isoPair
  by_cases hb1 : dayOfYear y m d + 4 ≤ isoWeekday y m d
  · rw [if_pos hb1]
    refine ⟨?_, ?_, ?_, ?_, ?_⟩ <;> (simp only []; omega)
  · rw [if_neg hb1]
    by_cases hb2 : daysInYear y + isoWeekday y m d < dayOfYear y m d + 4
    · rw [if_pos hb2]
      refine ⟨?_, ?_, ?_, ?_, ?_⟩ <;> (simp only []; omega)
    · rw [if_neg hb2]
      refine ⟨?_, ?_, ?_, ?_, ?_⟩ <;> (simp only []; omega)

theorem isoPair_lex_mono {t1 t2 : DateTime} (hv1 : t1.Valid) (hv2 : t2.Valid)
    (h2a : 2 ≤ t1.year) (h2b : 2 ≤ t2.year) (hk : dtKey t1 ≤ dtKey t2) :
    (isoPair t1.year t1.month t1.day).1 <
        (isoPair t2.year t2.month t2.day).1 ∨
      ((isoPair t1.year t1.month t1.day).1 =
          (isoPair t2.year t2.month t2.day).1 ∧
        (isoPair t1.year t1.month t1.day).2 ≤
          (isoPair t2.year t2.month t2.day).2) := by
  obtain ⟨a1, a2, a3, a4, a5, a6, a7, a8, a9⟩ := hv1
  obtain ⟨b1, b2, b3, b4, b5, b6, b7, b8, b9⟩ := hv2
  have hbr1 := isoPair_bracket h2a a3 a4 a5 a6
  have hbr2 := isoPair_bracket h2b b3 b4 b5 b6
  have hrd := rataDie_le_of_lex ⟨a1, a2, a3, a4, a5, a6, a7, a8, a9⟩
    ⟨b1, b2, b3, b4, b5, b6, b7, b8, b9⟩
    (dtKey_le_lex ⟨a1, a2, a3, a4, a5, a6, a7, a8, a9⟩
      ⟨b1, b2, b3, b4, b5, b6, b7, b8, b9⟩ hk)
  have hT := thursdayRd_mono hrd
  rcases Nat.lt_trichotomy (isoPair t1.year t1.month t1.day).1
    (isoPair t2.year t2.month t2.day).1 with hlt | heq | hgt
  · exact Or.inl hlt
  · right
    refine ⟨heq, ?_⟩
    obtain ⟨l1, u1, w1, lo1, hi1⟩ := hbr1
    obtain ⟨l2, u2, w2, lo2, hi2⟩ := hbr2
    rw [w1, w2, heq]
    rw [heq] at l1
    omega
  · exfalso
    obtain ⟨l1, u1, w1, lo1, hi1⟩ := hbr1
    obtain ⟨l2, u2, w2, lo2, hi2⟩ := hbr2
    have hY2 : 1 ≤ (isoPair t2.year t2.month t2.day).1 := by omega
    have hj := rataDie_jan1_lt hY2 hgt
    omega

/-! ## Decimal strings: four-digit years and two-digit fields are ordered
lexically as they are numerically -/

theorem decStrGo_fuel : ∀ (n f1 f2 : ℕ), n < f1 → n < f2 →
    decStrGo f1 n = decStrGo f2 n := by
  intro n
  induction n using Nat.strong_induction_on with
  | _ n ih =>
    intro f1 f2 h1 h2
    match f1, f2 with
    | g1 + 1, g2 + 1 =>
      show decStrGo (g1 + 1) n = decStrGo (g2 + 1) n
      by_cases h : n < 10
      · simp [decStrGo, h]
      · simp only [decStrGo, if_neg h]
        rw [ih (n / 10) (by omega) g1 g2 (by omega) (by omega)]

theorem decStr_step {n : ℕ} (h : 10 ≤ n) :
    (decStr n).toList = (decStr (n / 10)).toList ++ [digitChar (n % 10)] := by
  show decStrGo (n + 1) n = decStrGo (n / 10 + 1) (n / 10) ++ [digitChar (n % 10)]
  rw [show decStrGo (n + 1) n = if n < 10 then [digitChar n]
      else decStrGo n (n / 10) ++ [digitChar (n % 10)] from rfl,
    if_neg (by omega)]
  rw [decStrGo_fuel (n / 10) n (n / 10 + 1) (by omega) (by omega)]

theorem decStr_small {n : ℕ} (h : n < 10) :
    (decStr n).toList = [digitChar n] := by
  show decStrGo (n + 1) n = [digitChar n]
  rw [show decStrGo (n + 1) n = if n < 10 then [digitChar n]
      else decStrGo n (n / 10) ++ [digitChar (n % 10)] from rfl, if_pos h]

theorem decStr4 {n : ℕ} (h1 : 1000 ≤ n) (h2 : n ≤ 9999) :
    (decStr n).toList = [digitChar (n / 1000), digitChar (n / 100 % 10),
      digitChar (n / 10 % 10), digitChar (n % 10)] := by
  rw [decStr_step (by omega), decStr_step (by omega), decStr_step (by omega),
    decStr_small (by omega)]
  rw [Nat.div_div_eq_div_mul, Nat.div_div_eq_div_mul, Nat.div_div_eq_div_mul]
  norm_num

theorem pad2_chars {n : ℕ} (h : n < 100) :
    (pad2 n).toList = [digitChar (n / 10), digitChar (n % 10)] := by
  by_cases h10 : n < 10
  · unfold pad2
    rw [if_pos h10, show n / 10 = 0 from by omega,
      show n % 10 = n from by omega]
    rfl
  · unfold pad2
    rw [if_neg h10, decStr_step (by omega), decStr_small (by omega)]
    rfl

theorem digitChar_lt {a b : ℕ} (ha : a < 10) (hb : b < 10) (h : a < b) :
    charLt (digitChar a) (digitChar b) = true := by
  interval_cases a <;> interval_cases b <;> first | omega | decide

theorem digitChar_inj {a b : ℕ} (ha : a < 10) (hb : b < 10)
    (h : digitChar a = digitChar b) : a = b := by
  by_contra hne
  rcases Nat.lt_or_ge a b with hl | hg
  · have := digitChar_lt ha hb hl
    rw [h] at this
    simp [charLt] at this
  · have hgt : b < a := by omega
    have := digitChar_lt hb ha hgt
    rw [h] at this
    simp [charLt] at this

theorem charListLe_cons_of_lt {c d : Char} (h : charLt c d = true)
    (l1 l2 : List Char) : charListLe (c :: l1) (d :: l2) = true := by
  have hne : c ≠ d := by
    intro he
    rw [he] at h
    simp [charLt] at h
  simp [charListLe, hne, h]

theorem charListLe_cons_of_eq {c : Char} {l1 l2 : List Char}
    (h : charListLe l1 l2 = true) :
    charListLe (c :: l1) (c :: l2) = true := by
  simp [charListLe, h]

theorem charListLe_digit_cons {a b : ℕ} (ha : a < 10) (hb : b < 10)
    {l1 l2 : List Char} (hab : a ≤ b) (hrest : a = b → charListLe l1 l2 = true) :
    charListLe (digitChar a :: l1) (digitChar b :: l2) = true := by
  rcases Nat.lt_or_ge a b with hl | hg
  · exact charListLe_cons_of_lt (digitChar_lt ha hb hl) l1 l2
  · have he : a = b := by omega
    subst he
    exact charListLe_cons_of_eq (hrest rfl)

theorem fourDigitLe {n1 n2 : ℕ} (h1a : 1000 ≤ n1) (h1b : n1 ≤ 9999)
    (h2a : 1000 ≤ n2) (h2b : n2 ≤ 9999) (h : n1 ≤ n2)
    {rest1 rest2 : List Char} (hrest : n1 = n2 → charListLe rest1 rest2 = true) :
    charListLe ((decStr n1).toList ++ rest1) ((decStr n2).toList ++ rest2) =
      true := by
  rw [decStr4 h1a h1b, decStr4 h2a h2b]
  simp only [List.cons_append, List.nil_append]
  apply charListLe_digit_cons (by omega) (by omega) (by omega)
  intro e3
  apply charListLe_digit_cons (by omega) (by omega) (by omega)
  intro e2
  apply charListLe_digit_cons (by omega) (by omega) (by omega)
  intro e1
  apply charListLe_digit_cons (by omega) (by omega) (by omega)
  intro e0
  exact hrest (by omega)

theorem twoDigitLe {n1 n2 : ℕ} (h1 : n1 < 100) (h2 : n2 < 100) (h : n1 ≤ n2)
    {rest1 rest2 : List Char} (hrest : n1 = n2 → charListLe rest1 rest2 = true) :
    charListLe ((pad2 n1).toList ++ rest1) ((pad2 n2).toList ++ rest2) =
      true := by
  rw [pad2_chars h1, pad2_chars h2]
  simp only [List.cons_append, List.nil_append]
  apply charListLe_digit_cons (by omega) (by omega) (by omega)
  intro e1
  apply charListLe_digit_cons (by omega) (by omega) (by omega)
  intro e0
  exact hrest (by omega)

theorem strToList_append (a b : String) :
    (a ++ b).toList = a.toList ++ b.toList := by
  cases a
  cases b
  rfl

theorem isoPair_fst_cases (y m d : ℕ) :
    (isoPair y m d).1 = y - 1 ∨ (isoPair y m d).1 = y ∨
      (isoPair y m d).1 = y + 1 := by
  simp only [isoPair]
  split_ifs <;> simp

theorem monthLabel_mono {t1 t2 : DateTime} (hv1 : t1.Valid) (hv2 : t2.Valid)
    (hk : dtKey t1 ≤ dtKey t2) (hy1 : 1000 ≤ t1.year) (hy2 : t2.year ≤ 9999) :
    strLe (monthLabel t1) (monthLabel t2) = true := by
  have hlex := dtKey_le_lex hv1 hv2 hk
  have hyy : t1.year ≤ t2.year := by
    rcases hlex with h | ⟨h, _⟩ <;> omega
  have hm1 : t1.month ≤ 12 := hv1.2.2.2.1
  have hm2 : t2.month ≤ 12 := hv2.2.2.2.1
  show charListLe (monthLabel t1).toList (monthLabel t2).toList = true
  unfold monthLabel
  rw [strToList_append, strToList_append, strToList_append, strToList_append,
    List.append_assoc, List.append_assoc]
  apply fourDigitLe hy1 (by omega) (by omega) hy2 hyy
  intro hyeq
  have hmm : t1.month ≤ t2.month := by
    rcases hlex with h | ⟨h, hm⟩
    · omega
    · rcases hm with h' | ⟨h', _⟩ <;> omega
  show charListLe ('-' :: (pad2 t1.month).toList)
    ('-' :: (pad2 t2.month).toList) = true
  apply charListLe_cons_of_eq
  have h2 := @twoDigitLe t1.month t2.month (by omega) (by omega) hmm [] []
    (fun _ => charListLe_refl [])
  simpa using h2

theorem weekLabel_mono {t1 t2 : DateTime} (hv1 : t1.Valid) (hv2 : t2.Valid)
    (hk : dtKey t1 ≤ dtKey t2)
    (hiso1 : 1000 ≤ (isoPair t1.year t1.month t1.day).1)
    (hiso2 : (isoPair t2.year t2.month t2.day).1 ≤ 9999) :
    strLe (weekLabel t1) (weekLabel t2) = true := by
  have h2a : 2 ≤ t1.year := by
    rcases isoPair_fst_cases t1.year t1.month t1.day with h | h | h <;> omega
  have hlex := dtKey_le_lex hv1 hv2 hk
  have h2b : 2 ≤ t2.year := by
    have : t1.year ≤ t2.year := by rcases hlex with h | ⟨h, _⟩ <;> omega
    omega
  obtain ⟨a1, a2, a3, a4, a5, a6, a7, a8, a9⟩ := hv1
  obtain ⟨b1, b2, b3, b4, b5, b6, b7, b8, b9⟩ := hv2
  have hbr1 := isoPair_bracket h2a a3 a4 a5 a6
  have hbr2 := isoPair_bracket h2b b3 b4 b5 b6
  have hmono := isoPair_lex_mono ⟨a1, a2, a3, a4, a5, a6, a7, a8, a9⟩
    ⟨b1, b2, b3, b4, b5, b6, b7, b8, b9⟩ h2a h2b hk
  have hYY : (isoPair t1.year t1.month t1.day).1 ≤
      (isoPair t2.year t2.month t2.day).1 := by
    rcases hmono with h | ⟨h, _⟩ <;> omega
  have hw1 : (isoPair t1.year t1.month t1.day).2 < 100 := by
    obtain ⟨l1, u1, w1, lo1, hi1⟩ := hbr1
    have := daysInYear_bounds (isoPair t1.year t1.month t1.day).1
    omega
  have hw2 : (isoPair t2.year t2.month t2.day).2 < 100 := by
    obtain ⟨l2, u2, w2, lo2, hi2⟩ := hbr2
    have := daysInYear_bounds (isoPair t2.year t2.month t2.day).1
    omega
  show charListLe (weekLabel t1).toList (weekLabel t2).toList = true
  unfold weekLabel
  rw [strToList_append, strToList_append, strToList_append, strToList_append,
    List.append_assoc, List.append_assoc]
  apply fourDigitLe hiso1 (by omega) (by omega) hiso2 hYY
  intro hyeq
  have hww : (isoPair t1.year t1.month t1.day).2 ≤
      (isoPair t2.year t2.month t2.day).2 := by
    rcases hmono with h | ⟨h, hw⟩ <;> omega
  show charListLe ('-' :: 'W' :: (pad2 (isoPair t1.year t1.month t1.day).2).toList)
    ('-' :: 'W' :: (pad2 (isoPair t2.year t2.month t2.day).2).toList) = true
  apply charListLe_cons_of_eq
  apply charListLe_cons_of_eq
  have h2 := @twoDigitLe (isoPair t1.year t1.month t1.day).2
    (isoPair t2.year t2.month t2.day).2 hw1 hw2 hww [] []
    (fun _ => charListLe_refl [])
  simpa using h2

/-! ## C7: output ordering and label order vs. chronology -/

/-- C7 counterexample: `str(year)` is not zero-padded, so for the parseable
dates `0999-12-15` and `1000-01-15` (chronologically ordered) the monthly
bucket labels are `"999-12"` and `"1000-01"`, and lexical string order
reverses them — lexical order on bucket labels does not coincide with
chronological order for three-digit years. -/
theorem label_order_counterexample :
    parse_date "0999-12-15" = some ⟨999, 12, 15, 0, 0, 0⟩ ∧
    parse_date "1000-01-15" = some ⟨1000, 1, 15, 0, 0, 0⟩ ∧
    dtKey (⟨999, 12, 15, 0, 0, 0⟩ : DateTime) ≤
      dtKey ⟨1000, 1, 15, 0, 0, 0⟩ ∧
    strLe (monthLabel ⟨999, 12, 15, 0, 0, 0⟩)
      (monthLabel ⟨1000, 1, 15, 0, 0, 0⟩) = false := by decide

/-- C7 amended: (i) the final output of `group_by_period` is sorted
ascending by its bucket-label string for every resolution; (ii) for dates
whose (label) years have four digits, lexical order on monthly labels
coincides with chronological order; (iii) likewise for weekly labels when
the ISO years have four digits. -/
theorem aggregate_sorted_and_label_order :
    (∀ (rows : List Row) (period : String) (out : List Row),
      group_by_period rows period = .ok out → List.Sorted rowLe out) ∧
    (∀ t1 t2 : DateTime, t1.Valid → t2.Valid → dtKey t1 ≤ dtKey t2 →
      1000 ≤ t1.year → t2.year ≤ 9999 →
      strLe (monthLabel t1) (monthLabel t2) = true) ∧
    (∀ t1 t2 : DateTime, t1.Valid → t2.Valid → dtKey t1 ≤ dtKey t2 →
      1000 ≤ (isoPair t1.year t1.month t1.day).1 →
      (isoPair t2.year t2.month t2.day).1 ≤ 9999 →
      strLe (weekLabel t1) (weekLabel t2) = true) := by
  refine ⟨?_, fun t1 t2 hv1 hv2 hk h1 h2 => monthLabel_mono hv1 hv2 hk h1 h2,
    fun t1 t2 hv1 hv2 hk h1 h2 => weekLabel_mono hv1 hv2 hk h1 h2⟩
  intro rows period out h
  by_cases hp : period = "intraday" ∨ period = "daily"
  · rw [group_by_period, if_pos hp] at h
    injection h with h'
    subst h'
    exact sortRows_sorted rows
  · obtain ⟨pairs, _, hout⟩ := group_by_period_grouped hp h
    rw [hout]
    exact sortRows_sorted _

/-- Witness for the amended C7 theorem: sortedness of a concrete weekly
aggregation, and the concrete ordered labels of 2024-12-30 ≤ 2025-01-02. -/
theorem aggregate_sorted_and_label_order_witness :
    List.Sorted rowLe [(⟨"2025-W01", 10, 13, 8, 12⟩ : Row)] ∧
    strLe (monthLabel ⟨2024, 12, 30, 0, 0, 0⟩)
      (monthLabel ⟨2025, 1, 2, 0, 0, 0⟩) = true ∧
    strLe (weekLabel ⟨2024, 12, 30, 0, 0, 0⟩)
      (weekLabel ⟨2025, 1, 2, 0, 0, 0⟩) = true :=
  ⟨aggregate_sorted_and_label_order.1
      [⟨"2024-12-30", 10, 12, 9, 11⟩, ⟨"2025-01-02", 11, 13, 8, 12⟩]
      "weekly" [⟨"2025-W01", 10, 13, 8, 12⟩] (by decide),
    aggregate_sorted_and_label_order.2.1 ⟨2024, 12, 30, 0, 0, 0⟩
      ⟨2025, 1, 2, 0, 0, 0⟩ (by decide) (by decide) (by decide) (by decide)
      (by decide),
    aggregate_sorted_and_label_order.2.2 ⟨2024, 12, 30, 0, 0, 0⟩
      ⟨2025, 1, 2, 0, 0, 0⟩ (by decide) (by decide) (by decide) (by decide)
      (by decide)⟩

/-! ## C4: the weekly bucket key is the ISO year and week -/

/-- C4: the weekly bucket label of every parseable record is
`{ISO year}-W{ISO week zero-padded to 2 digits}`; the ISO pair satisfies
the ISO-8601 characterization — the label year is the calendar year of the
Thursday of the record's Monday-to-Sunday week, and the week number is that
Thursday's one-based week index inside that year — and consequently
`2024-12-30` and `2025-01-02` both get the label `2025-W01` and land in a
single weekly bucket. -/
theorem weekly_bucket_iso :
    (∀ (r : Row) (t : DateTime), parse_date r.date = some t →
      labelOfRow "weekly" r =
        some (decStr (isoPair t.year t.month t.day).1 ++ "-W" ++
          pad2 (isoPair t.year t.month t.day).2)) ∧
    (∀ y m d : ℕ, 2 ≤ y → 1 ≤ m → m ≤ 12 → 1 ≤ d → d ≤ daysInMonth y m →
      rataDie (isoPair y m d).1 1 1 ≤ thursdayRd (rataDie y m d) ∧
      thursdayRd (rataDie y m d) <
        rataDie (isoPair y m d).1 1 1 + daysInYear (isoPair y m d).1 ∧
      (isoPair y m d).2 =
        (thursdayRd (rataDie y m d) - rataDie (isoPair y m d).1 1 1) / 7 + 1) ∧
    labelOfRow "weekly" ⟨"2024-12-30", 10, 12, 9, 11⟩ = some "2025-W01" ∧
    labelOfRow "weekly" ⟨"2025-01-02", 11, 13, 8, 12⟩ = some "2025-W01" ∧
    group_by_period [⟨"2024-12-30", 10, 12, 9, 11⟩,
      ⟨"2025-01-02", 11, 13, 8, 12⟩] "weekly" =
      .ok [⟨"2025-W01", 10, 13, 8, 12⟩] := by
  refine ⟨?_, ?_, by decide, by decide, by decide⟩
  · intro r t h
    rw [labelOfRow, h]
    rfl
  · intro y m d h2 hm1 hm2 hd1 hd2
    obtain ⟨l, u, w, _, _⟩ := isoPair_bracket h2 hm1 hm2 hd1 hd2
    exact ⟨l, u, w⟩

/-- Witness for C4: the format clause at a parsed record and the ISO
characterization at the concrete date 2024-12-30. -/
theorem weekly_bucket_iso_witness :
    labelOfRow "weekly" ⟨"2024-12-30", 10, 12, 9, 11⟩ =
      some (decStr (isoPair 2024 12 30).1 ++ "-W" ++
        pad2 (isoPair 2024 12 30).2) ∧
    (isoPair 2024 12 30).2 =
      (thursdayRd (rataDie 2024 12 30) - rataDie (isoPair 2024 12 30).1 1 1)
        / 7 + 1 :=
  ⟨weekly_bucket_iso.1 ⟨"2024-12-30", 10, 12, 9, 11⟩ ⟨2024, 12, 30, 0, 0, 0⟩
      rfl,
    (weekly_bucket_iso.2.1 2024 12 30 (by decide) (by decide) (by decide)
      (by decide) (by decide)).2.2⟩
